import Mathlib

/-!
# Core/FileSystems/MetaFileSystem.cpp

A shallow embedding of the path normaliser (`ApplyPathStringToComponentsVector`,
`RealPath`) and of the router (`MetaFileSystem`) of
`Core/FileSystems/MetaFileSystem.cpp`, followed by theorems about them.

Conventions of the embedding.

* A `std::string` is the list of its characters (`Str`).  `size_t` values are
  natural numbers; `std::string::npos` is `2^64 - 1` and additions on `size_t`
  are taken modulo `2^64` (`sizeAdd`).  No `std::string` is as long as `npos`,
  which the theorems on `RealPath` assume of their arguments.
* `c_str()` hands a C function the characters up to the first NUL; the
  theorems on the mount scan assume mount prefixes without a NUL inside.
* `__KernelGetCurThread()` is an argument of the functions that call it, and
  an `IFileSystem *` is the address it holds (`0` for the null pointer).
* `std::string::substr(pos, n)` throws `std::out_of_range` when
  `pos > size()`.  A thrown exception is the result `.error Fault.out_of_range`;
  nothing in the file catches one, so it propagates to the caller.
* A `bool` function with an output parameter returns `some out` for `true`
  (with the value written into the parameter) and `none` for `false`.
* The `while` loop of `ApplyPathStringToComponentsVector` is driven by a fuel
  counter; running out of fuel is the separate result `Fault.out_of_fuel`,
  which the theorems show never to happen.
* A call of a virtual function through an `IFileSystem *` that points to no
  object (the null pointer among them) is the result `Fault.null_pointer`.
  The calls made to backing filesystems are recorded in a list of `Call`s.
* Log statements (`WARN_LOG`, `ERROR_LOG`, ...) have no effect on the state
  and are left out, as is `outPath.reserve`, which only changes capacity.
-/

namespace MetaFS

/-! ## Strings and `size_t` -/

/-- The contents of a `std::string`. -/
abbrev Str := List Char

/-- The number of values of `size_t`. -/
def SIZE_MOD : Nat := 18446744073709551616

/-- The constant `std::string::npos`, the largest `size_t`. -/
def npos : Nat := SIZE_MOD - 1

/-- Addition on `size_t` (wraps around). -/
def sizeAdd (a b : Nat) : Nat := (a + b) % SIZE_MOD

/-- The ways a call can end other than by returning. -/
inductive Fault where
  | out_of_range
  | out_of_fuel
  | null_pointer
  deriving DecidableEq, Repr

deriving instance DecidableEq for Except

/-- Scan for `c`; `i` is the index of the head of the list in the whole string. -/
def findAux (c : Char) : Str → Nat → Nat
  | [], _ => npos
  | x :: xs, i => if x = c then i else findAux c xs (i + 1)

/-- The call `s.find(c, pos)`: index of the first `c` at or after `pos`, else `npos`. -/
def find (s : Str) (c : Char) (pos : Nat) : Nat :=
  findAux c (s.drop pos) pos

/-- The call `s.substr(pos, n)`; `s.substr(pos)` is `substr s pos npos`. -/
def substr (s : Str) (pos n : Nat) : Except Fault Str :=
  if pos > s.length then .error .out_of_range
  else .ok ((s.drop pos).take n)

/-! ## ApplyPathStringToComponentsVector -/

/-- The body of the `if (i > start)` block: what one component does to the vector. -/
def applyComponent (vector : List Str) (component : Str) : List Str :=
  if component ≠ ['.'] then
    if component = ['.', '.'] then
      if vector.length ≠ 0 then vector.dropLast
      else vector
    else vector ++ [component]
  else vector

/-- The `while (start < len)` loop, with the loop variable `start` and the vector as state. -/
def applyLoop (pathString : Str) : Nat → List Str → Nat → Except Fault (List Str)
  | 0, vector, start =>
    if start < pathString.length then .error .out_of_fuel else .ok vector
  | fuel + 1, vector, start =>
    let len := pathString.length
    if start < len then
      let i := find pathString '/' start
      let i := if i = npos then len else i
      if i > start then
        match substr pathString start (i - start) with
        | .error e => .error e
        | .ok component =>
          applyLoop pathString fuel (applyComponent vector component) (sizeAdd i 1)
      else
        applyLoop pathString fuel vector (sizeAdd i 1)
    else .ok vector

/-- The function `ApplyPathStringToComponentsVector(vector, pathString)`: the returned
`bool` and the vector afterwards. -/
def ApplyPathStringToComponentsVector (vector : List Str) (pathString : Str) :
    Except Fault (Bool × List Str) :=
  match applyLoop pathString pathString.length vector 0 with
  | .error e => .error e
  | .ok v => .ok (true, v)

/-! ## RealPath -/

/-- The closing loop of `RealPath`: `outPath` starts as the prefix and receives
a slash and the component for every entry of `cmpnts`. -/
def appendComponents (outPath : Str) (cmpnts : List Str) : Str :=
  cmpnts.foldl (fun out c => out ++ ['/'] ++ c) outPath

/-- The part of `RealPath` after the relative/absolute branches (lines 134-152). -/
def realPathFinish (pfx inAfterColon : Str) (cmpnts : List Str) :
    Except Fault (Option Str) :=
  match ApplyPathStringToComponentsVector cmpnts inAfterColon with
  | .error e => .error e
  | .ok (false, _) => .ok none
  | .ok (true, cmpnts) => .ok (some (appendComponents pfx cmpnts))

/-- The function `RealPath(currentDirectory, inPath, outPath)`. -/
def RealPath (currentDirectory inPath : Str) : Except Fault (Option Str) :=
  let inLen := inPath.length
  if inLen = 0 then .ok (some currentDirectory)
  else
    let inColon := find inPath ':' 0
    if sizeAdd inColon 1 = inLen then .ok (some inPath)
    else if inColon = npos then
      -- relative
      let curDirLen := currentDirectory.length
      if curDirLen = 0 then .ok none
      else
        let curDirColon := find currentDirectory ':' 0
        if curDirColon = npos then .ok none
        else if sizeAdd curDirColon 1 = curDirLen then
          match substr currentDirectory 0 (sizeAdd curDirColon 1) with
          | .error e => .error e
          | .ok pfx => realPathFinish pfx inPath []
        else
          match substr currentDirectory (sizeAdd curDirColon 1) npos with
          | .error e => .error e
          | .ok curDirAfter =>
            match ApplyPathStringToComponentsVector [] curDirAfter with
            | .error e => .error e
            | .ok (false, _) => .ok none
            | .ok (true, cmpnts) =>
              match substr currentDirectory 0 (sizeAdd curDirColon 1) with
              | .error e => .error e
              | .ok pfx => realPathFinish pfx inPath cmpnts
    else
      match substr inPath 0 (sizeAdd inColon 1) with
      | .error e => .error e
      | .ok pfx =>
        match substr inPath (sizeAdd inColon 1) npos with
        | .error e => .error e
        | .ok inAfterColon => realPathFinish pfx inAfterColon []


/-! ## The segment view of a path string -/

/-- The segments of a string between its slashes (a string with `n` slashes has
`n + 1` segments, some possibly empty). -/
def splitSlash : Str → List Str
  | [] => [[]]
  | c :: cs =>
    if c = '/' then [] :: splitSlash cs
    else
      match splitSlash cs with
      | [] => [[c]]
      | seg :: segs => (c :: seg) :: segs

/-- What one segment does to the component stack: an empty segment and `.` leave
it unchanged, `..` pops the last component if there is one and otherwise leaves
it unchanged, anything else is pushed. -/
def stepSegment (stack : List Str) (seg : Str) : List Str :=
  if seg = [] then stack
  else if seg = ['.'] then stack
  else if seg = ['.', '.'] then stack.dropLast
  else stack ++ [seg]

/-- An ordinary path component: non-empty, without a slash, and neither `.`
nor `..`. -/
def ordinary (x : Str) : Prop :=
  x ≠ [] ∧ '/' ∉ x ∧ x ≠ ['.'] ∧ x ≠ ['.', '.']

instance (x : Str) : Decidable (ordinary x) := by
  unfold ordinary; infer_instance

/-- A canonical absolute path: a prefix whose only colon is its last character,
followed by a slash and the component for every entry of a (possibly empty)
list of ordinary components. -/
def canonical (out : Str) : Prop :=
  ∃ (p : Str) (cmpnts : List Str), ':' ∉ p ∧ (∀ c ∈ cmpnts, ordinary c)
    ∧ out = p ++ [':'] ++ (cmpnts.map (fun c => '/' :: c)).flatten

/-! ## The C library: `tolower` and `strncasecmp` -/

/-- The terminating character of a C string. -/
def NUL : Char := Char.ofNat 0

/-- The C function `tolower` in the C locale: `A`..`Z` go to `a`..`z`. -/
def tolower (c : Char) : Char :=
  if 65 ≤ c.toNat ∧ c.toNat ≤ 90 then Char.ofNat (c.toNat + 32) else c

/-- The C function `strncasecmp(s1, s2, n)` on the C strings `s1.c_str()` and
`s2.c_str()`: at most `n` characters are compared, ignoring case, and the
comparison stops at the first difference or at a terminating NUL (reading a
`std::string` at its end gives NUL).  The result is zero when no difference
was found. -/
def strncasecmp : Str → Str → Nat → Int
  | _, _, 0 => 0
  | s1, s2, n + 1 =>
    let c1 := s1.headD NUL
    let c2 := s2.headD NUL
    let result : Int := ((tolower c1).toNat : Int) - ((tolower c2).toNat : Int)
    if result ≠ 0 then result
    else if c1 = NUL then 0
    else strncasecmp s1.tail s2.tail n

/-- The prefix `pfx` equals, ignoring case, the leading characters of `path`. -/
def ciPrefix (pfx path : Str) : Prop :=
  pfx.map tolower = (path.take pfx.length).map tolower

instance (pfx path : Str) : Decidable (ciPrefix pfx path) := by
  unfold ciPrefix; infer_instance

/-! ## MetaFileSystem -/

/-- The struct `MountPoint`: a prefix and the address of the backing
`IFileSystem` (`0` is the null pointer). -/
structure MountPoint where
  pfx : Str
  system : Nat
  deriving DecidableEq, Repr

/-- The type `currentDir_t`, a `std::map<int, std::string>`, as a lookup function. -/
abbrev CurrentDir := Int → Option Str

/-- The data members of `MetaFileSystem`. -/
structure MetaFileSystem where
  current : Int
  currentDir : CurrentDir
  fileSystems : List MountPoint
  startingDirectory : Str

/-- The literal `"host0:"`. -/
def host0 : Str := ['h', 'o', 's', 't', '0', ':']

/-- The `for` loop of `MapFilePath` over `fileSystems[i]`, from index `i` on:
`some (outpath, i)` when binding `i` matched, `none` when the loop ran out. -/
def scanMounts (realpath : Str) : List MountPoint → Nat → Except Fault (Option (Str × Nat))
  | [], _ => .ok none
  | mp :: rest, i =>
    let prefLen := mp.pfx.length
    if strncasecmp mp.pfx realpath prefLen = 0 then
      match substr realpath prefLen npos with
      | .error e => .error e
      | .ok outpath => .ok (some (outpath, i))
    else scanMounts realpath rest (i + 1)

/-- The current directory `MapFilePath` uses for thread `currentThread`. -/
def currentDirectoryOf (m : MetaFileSystem) (currentThread : Int) : Str :=
  match m.currentDir currentThread with
  | none => m.startingDirectory
  | some d => d

/-- The function `MetaFileSystem::MapFilePath(_inpath, outpath, system)`; the value
of `__KernelGetCurThread()` is the argument `currentThread`.  The result
`some (outpath, i)` stands for `true` with `*system = &fileSystems[i]`. -/
def MapFilePath (m : MetaFileSystem) (currentThread : Int) (_inpath : Str) :
    Except Fault (Option (Str × Nat)) :=
  let stripped : Except Fault Str :=
    if strncasecmp _inpath host0 5 = 0 then substr _inpath 6 npos
    else .ok _inpath
  match stripped with
  | .error e => .error e
  | .ok inpath =>
    match RealPath (currentDirectoryOf m currentThread) inpath with
    | .error e => .error e
    | .ok none => .ok none
    | .ok (some realpath) => scanMounts realpath m.fileSystems 0

/-- The function `MetaFileSystem::Mount(prefix, system)`. -/
def Mount (m : MetaFileSystem) (pfx : Str) (system : Nat) : MetaFileSystem :=
  { m with fileSystems := m.fileSystems ++ [{ pfx := pfx, system := system }] }

/-- Insertion into a `std::set<IFileSystem *>`, kept as a strictly increasing list. -/
def setInsert (x : Nat) : List Nat → List Nat
  | [] => [x]
  | y :: ys =>
    if x < y then x :: y :: ys
    else if x = y then y :: ys
    else y :: setInsert x ys

/-- The set `toDelete` built by the first loop of `Shutdown`. -/
def toDelete (fileSystems : List MountPoint) : List Nat :=
  fileSystems.foldl (fun set mp => setInsert mp.system set) []

/-- The function `MetaFileSystem::Shutdown()`: the state afterwards and the
objects destroyed by `delete *iter`, in order (`delete` of a null pointer
destroys nothing). -/
def Shutdown (m : MetaFileSystem) : MetaFileSystem × List Nat :=
  ({ current := 6
     currentDir := fun _ => none
     fileSystems := []
     startingDirectory := [] },
   (toDelete m.fileSystems).filter (fun ptr => ptr ≠ 0))

/-- The function `MetaFileSystem::ThreadEnded(threadID)`. -/
def ThreadEnded (m : MetaFileSystem) (threadID : Int) : MetaFileSystem :=
  { m with currentDir := fun t => if t = threadID then none else m.currentDir t }

/-- The assignment `currentDir[curThread] = value`. -/
def setCurrentDir (m : MetaFileSystem) (curThread : Int) (value : Str) : MetaFileSystem :=
  { m with currentDir := fun t => if t = curThread then some value else m.currentDir t }

/-- The function `MetaFileSystem::ChDir(dir)`; `curThread` is the value of
`__KernelGetCurThread()`.  The result is the state afterwards and how the call
ended: an exception out of `MapFilePath` leaves before any assignment.
`mountPoint->prefix` reads binding `i` of `fileSystems`; `MapFilePath` only
returns the index of an existing binding (`MapFilePath_index`), so the lookup
never takes its `none` case. -/
def ChDir (m : MetaFileSystem) (curThread : Int) (dir : Str) :
    MetaFileSystem × Except Fault Unit :=
  match MapFilePath m curThread dir with
  | .error e => (m, .error e)
  | .ok (some (of, i)) =>
    match m.fileSystems[i]? with
    | some mountPoint => (setCurrentDir m curThread (mountPoint.pfx ++ of), .ok ())
    | none => (m, .error .out_of_range)
  | .ok none => (setCurrentDir m curThread dir, .ok ())

/-! ## Backing filesystems, handle operations and RenameFile -/

/-- Modelled from the spec: the abstract class `IFileSystem`
(Core/FileSystems/FileSystem.h is not among the sources).  Of the capability
that the spec lists for a backing filesystem, these are the virtual functions
that the handle operations and `RenameFile` call, each given by the value the
call returns; what a call changes inside the backing filesystem is not
modelled.  A buffer is the address passed, a `FileMove` is its number. -/
structure IFileSystem where
  OwnsHandle : Nat → Bool
  ReadFile : Nat → Nat → Int → Nat
  WriteFile : Nat → Nat → Int → Nat
  SeekFile : Nat → Int → Nat → Nat
  RenameFile : Str → Str → Bool

/-- The objects that the `IFileSystem *` values point to, by address. -/
abbrev Objects := Nat → Option IFileSystem

/-- The object a pointer points to; the null pointer points to none. -/
def deref (objects : Objects) (ptr : Nat) : Option IFileSystem :=
  if ptr = 0 then none else objects ptr

/-- A call of a virtual function of a backing filesystem: the address of the
object and the arguments. -/
inductive Call where
  | OwnsHandle (system handle : Nat)
  | CloseFile (system handle : Nat)
  | ReadFile (system handle pointer : Nat) (size : Int)
  | WriteFile (system handle pointer : Nat) (size : Int)
  | SeekFile (system handle : Nat) (position : Int) (type : Nat)
  | RenameFile (system : Nat) (of rf : Str)
  deriving DecidableEq, Repr

/-- The `for` loop of `GetHandleOwner` over `fileSystems[i]`: the calls made and
the pointer returned (`0` when the loop ran out). -/
def handleOwnerLoop (objects : Objects) (handle : Nat) :
    List MountPoint → List Call × Except Fault Nat
  | [] => ([], .ok 0)
  | mp :: rest =>
    match deref objects mp.system with
    | none => ([], .error .null_pointer)
    | some fs =>
      if fs.OwnsHandle handle then ([.OwnsHandle mp.system handle], .ok mp.system)
      else
        let r := handleOwnerLoop objects handle rest
        (.OwnsHandle mp.system handle :: r.1, r.2)

/-- The function `MetaFileSystem::GetHandleOwner(handle)`. -/
def GetHandleOwner (m : MetaFileSystem) (objects : Objects) (handle : Nat) :
    List Call × Except Fault Nat :=
  handleOwnerLoop objects handle m.fileSystems

/-- The function `MetaFileSystem::CloseFile(handle)`. -/
def CloseFile (m : MetaFileSystem) (objects : Objects) (handle : Nat) :
    List Call × Except Fault Unit :=
  match GetHandleOwner m objects handle with
  | (calls, .error e) => (calls, .error e)
  | (calls, .ok sys) =>
    if sys ≠ 0 then
      match deref objects sys with
      | none => (calls, .error .null_pointer)
      | some _ => (calls ++ [.CloseFile sys handle], .ok ())
    else (calls, .ok ())

/-- The function `MetaFileSystem::ReadFile(handle, pointer, size)`. -/
def ReadFile (m : MetaFileSystem) (objects : Objects) (handle pointer : Nat) (size : Int) :
    List Call × Except Fault Nat :=
  match GetHandleOwner m objects handle with
  | (calls, .error e) => (calls, .error e)
  | (calls, .ok sys) =>
    if sys ≠ 0 then
      match deref objects sys with
      | none => (calls, .error .null_pointer)
      | some fs =>
        (calls ++ [.ReadFile sys handle pointer size], .ok (fs.ReadFile handle pointer size))
    else (calls, .ok 0)

/-- The function `MetaFileSystem::WriteFile(handle, pointer, size)`. -/
def WriteFile (m : MetaFileSystem) (objects : Objects) (handle pointer : Nat) (size : Int) :
    List Call × Except Fault Nat :=
  match GetHandleOwner m objects handle with
  | (calls, .error e) => (calls, .error e)
  | (calls, .ok sys) =>
    if sys ≠ 0 then
      match deref objects sys with
      | none => (calls, .error .null_pointer)
      | some fs =>
        (calls ++ [.WriteFile sys handle pointer size], .ok (fs.WriteFile handle pointer size))
    else (calls, .ok 0)

/-- The function `MetaFileSystem::SeekFile(handle, position, type)`. -/
def SeekFile (m : MetaFileSystem) (objects : Objects) (handle : Nat) (position : Int)
    (type : Nat) : List Call × Except Fault Nat :=
  match GetHandleOwner m objects handle with
  | (calls, .error e) => (calls, .error e)
  | (calls, .ok sys) =>
    if sys ≠ 0 then
      match deref objects sys with
      | none => (calls, .error .null_pointer)
      | some fs =>
        (calls ++ [.SeekFile sys handle position type],
          .ok (fs.SeekFile handle position type))
    else (calls, .ok 0)

/-- Modelled from the spec: the overload
`MapFilePath(inpath, outpath, IFileSystem **system)`, declared in
MetaFileSystem.h, which is not among the sources.  Following the spec
("resolve via MountTable, on success delegate the stripped path to the backing
filesystem"), it calls the `MountPoint` version and on `true` writes the
backing filesystem of the selected binding into `*system`; on `false` it leaves
`*system` as it was.  The result `some (outpath, system)` stands for `true`. -/
def MapFilePathSystem (m : MetaFileSystem) (currentThread : Int) (inpath : Str) :
    Except Fault (Option (Str × Nat)) :=
  match MapFilePath m currentThread inpath with
  | .error e => .error e
  | .ok none => .ok none
  | .ok (some (outpath, i)) =>
    match m.fileSystems[i]? with
    | some mountPoint => .ok (some (outpath, mountPoint.system))
    | none => .error .out_of_range

/-- The function `MetaFileSystem::RenameFile(from, to)`, with `pathFrom` and
`pathTo` for its arguments.  The operator `&&` evaluates its right side only
when the left side is true, and both calls write the one variable `system`, so
the call goes to what the second call wrote. -/
def RenameFile (m : MetaFileSystem) (objects : Objects) (currentThread : Int)
    (pathFrom pathTo : Str) : List Call × Except Fault Bool :=
  match MapFilePathSystem m currentThread pathFrom with
  | .error e => ([], .error e)
  | .ok none => ([], .ok false)
  | .ok (some (of, _)) =>
    match MapFilePathSystem m currentThread pathTo with
    | .error e => ([], .error e)
    | .ok none => ([], .ok false)
    | .ok (some (rf, system)) =>
      match deref objects system with
      | none => ([], .error .null_pointer)
      | some fs => ([.RenameFile system of rf], .ok (fs.RenameFile of rf))

/-! ## DoState -/

/-- The modes of a `PointerWrap` that matter to the data members: in `MODE_READ`
a `Do` call overwrites its argument from the stream, in every other mode
(writing, measuring) it leaves its argument as it is. -/
inductive Mode where
  | MODE_READ
  | MODE_WRITE
  deriving DecidableEq, Repr

/-- Modelled from the spec: the class `PointerWrap` (Common/ChunkFile.h) is not
among the sources.  Following the persisted layout of the spec, an ordered
record `[marker:uint32][workingDirectoryMap][mountCount:uint32]` followed by the
state of each backing filesystem in mount order, a `PointerWrap` is its mode
and the three leading values of the record that the `Do` calls of
`MetaFileSystem::DoState` hand out in order when reading.  The stream produced
when writing and the blobs of the backing filesystems are not modelled. -/
structure PointerWrap where
  mode : Mode
  marker : Int
  workingDirectoryMap : CurrentDir
  mountCount : Nat

/-- Modelled from the spec: the call `p.Do(x)`, where `recorded` is the value the
stream holds at this position: reading replaces `x` by it, the other modes
keep `x`. -/
def PointerWrap.Do {α : Type} (p : PointerWrap) (x recorded : α) : α :=
  match p.mode with
  | .MODE_READ => recorded
  | .MODE_WRITE => x

/-- What a call of `MetaFileSystem::DoState` did: the data members afterwards,
whether `ERROR_LOG(FILESYS, "Savestate failure: ...")` ran, the backing
filesystems whose `DoState(p)` was called, in order, and whether
`p.DoMarker("MetaFileSystem")` was reached. -/
structure DoStateTrace where
  state : MetaFileSystem
  errorLogged : Bool
  systemsCalled : List Nat
  markerReached : Bool

/-- The function `MetaFileSystem::DoState(p)`.  The casts to `u32` are taken
modulo `2^32`. -/
def DoState (m : MetaFileSystem) (p : PointerWrap) : DoStateTrace :=
  let m1 := { m with current := p.Do m.current p.marker }
  let m2 := { m1 with currentDir := p.Do m1.currentDir p.workingDirectoryMap }
  let n : Nat := m2.fileSystems.length % 4294967296
  let n := p.Do n (p.mountCount % 4294967296)
  if n ≠ m2.fileSystems.length % 4294967296 then
    { state := m2, errorLogged := true, systemsCalled := [], markerReached := false }
  else
    { state := m2
      errorLogged := false
      systemsCalled := (List.range n).filterMap
        (fun i => (m2.fileSystems[i]?).map (fun mp => mp.system))
      markerReached := true }

/-- A router with the single mount `ms0:`, marker 0 and an empty registry. -/
def oneMountRouter : MetaFileSystem :=
  { current := 0
    currentDir := fun _ => none
    fileSystems := [{ pfx := "ms0:".toList, system := 1 }]
    startingDirectory := [] }

/-- A stream being read that records marker 6, the working directory `ms0:/`
for thread 1, and two mounts. -/
def twoMountSnapshot : PointerWrap :=
  { mode := .MODE_READ
    marker := 6
    workingDirectoryMap := fun t => if t = 1 then some "ms0:/".toList else none
    mountCount := 2 }

/-- The router `oneMountRouter` with the starting directory `ms0:/`. -/
def ms0Router : MetaFileSystem :=
  { oneMountRouter with startingDirectory := "ms0:/".toList }

/-- A router with the mounts `ms0:` (filesystem at address 1) and `umd0:`
(filesystem at address 2), an empty registry and the starting directory `ms0:/`. -/
def twoMountRouter : MetaFileSystem :=
  { current := 0
    currentDir := fun _ => none
    fileSystems := [{ pfx := "ms0:".toList, system := 1 },
                    { pfx := "umd0:".toList, system := 2 }]
    startingDirectory := "ms0:/".toList }

/-- A backing filesystem that owns exactly the handle `owned`, transfers as many
bytes as asked for, seeks to the position asked for, and renames with success
exactly when the two paths differ. -/
def sampleFileSystem (owned : Nat) : IFileSystem :=
  { OwnsHandle := fun handle => handle == owned
    ReadFile := fun _ _ size => size.toNat
    WriteFile := fun _ _ size => size.toNat
    SeekFile := fun _ position _ => position.toNat
    RenameFile := fun of rf => of != rf }

/-- Two objects: at address 1 a filesystem that owns handle 5, at address 2 one
that owns handle 7. -/
def sampleObjects : Objects := fun ptr =>
  if ptr = 1 then some (sampleFileSystem 5)
  else if ptr = 2 then some (sampleFileSystem 7)
  else none

/-! # Theorems -/

/-! ## Lemmas on `find`, `substr` and the loop -/

theorem npos_eq : npos = 18446744073709551615 := by decide

theorem sizeAdd_one_of_lt {a : Nat} (h : a < npos) : sizeAdd a 1 = a + 1 := by
  unfold sizeAdd SIZE_MOD
  rw [npos_eq] at h
  omega

theorem sizeAdd_npos_one : sizeAdd npos 1 = 0 := by decide

theorem findAux_append (c : Char) (seg rest : Str) (i : Nat) (h : c ∉ seg) :
    findAux c (seg ++ c :: rest) i = i + seg.length := by
  induction seg generalizing i with
  | nil => simp [findAux]
  | cons x xs ih =>
    have hx : x ≠ c := fun e => h (by simp [e])
    have hxs : c ∉ xs := fun e => h (by simp [e])
    have e := ih (i + 1) hxs
    rw [List.cons_append, findAux, if_neg hx, e, List.length_cons]
    omega

theorem findAux_of_not_mem (c : Char) (s : Str) (i : Nat) (h : c ∉ s) :
    findAux c s i = npos := by
  induction s generalizing i with
  | nil => simp [findAux]
  | cons x xs ih =>
    have hx : x ≠ c := fun e => h (by simp [e])
    have hxs : c ∉ xs := fun e => h (by simp [e])
    rw [findAux, if_neg hx, ih (i + 1) hxs]

theorem find_at_append (pre suf : Str) (c : Char) :
    find (pre ++ suf) c pre.length = findAux c suf pre.length := by
  simp [find]

theorem find_zero (s : Str) (c : Char) : find s c 0 = findAux c s 0 := by
  simp [find]

theorem substr_at_append (pre seg rest : Str) :
    substr (pre ++ (seg ++ rest)) pre.length seg.length = .ok seg := by
  unfold substr
  have h : ¬ pre.length > (pre ++ (seg ++ rest)).length := by simp
  rw [if_neg h]
  simp

/-- Every string either has no slash or splits at its first slash. -/
theorem exists_first_slash (s : Str) :
    '/' ∉ s ∨ ∃ seg rest, s = seg ++ '/' :: rest ∧ '/' ∉ seg := by
  induction s with
  | nil => left; simp
  | cons x xs ih =>
    by_cases hx : x = '/'
    · right; exact ⟨[], xs, by simp [hx], by simp⟩
    · rcases ih with h | ⟨seg, rest, hs, hseg⟩
      · left
        simp only [List.mem_cons, not_or]
        exact ⟨fun e => hx e.symm, h⟩
      · right
        refine ⟨x :: seg, rest, by simp [hs], ?_⟩
        simp only [List.mem_cons, not_or]
        exact ⟨fun e => hx e.symm, hseg⟩

theorem splitSlash_ne_nil (s : Str) : splitSlash s ≠ [] := by
  induction s with
  | nil => simp [splitSlash]
  | cons x xs ih =>
    unfold splitSlash
    split
    · simp
    · split <;> simp

theorem splitSlash_of_not_mem (s : Str) (h : '/' ∉ s) : splitSlash s = [s] := by
  induction s with
  | nil => simp [splitSlash]
  | cons x xs ih =>
    have hx : x ≠ '/' := fun e => h (by simp [e])
    have hxs : '/' ∉ xs := fun e => h (by simp [e])
    simp [splitSlash, hx, ih hxs]

theorem splitSlash_append (seg rest : Str) (h : '/' ∉ seg) :
    splitSlash (seg ++ '/' :: rest) = seg :: splitSlash rest := by
  induction seg with
  | nil => simp [splitSlash]
  | cons x xs ih =>
    have hx : x ≠ '/' := fun e => h (by simp [e])
    have hxs : '/' ∉ xs := fun e => h (by simp [e])
    simp [splitSlash, hx, ih hxs]

theorem applyLoop_done (s : Str) (fuel : Nat) (vec : List Str) (start : Nat)
    (h : ¬ start < s.length) : applyLoop s fuel vec start = .ok vec := by
  cases fuel <;> simp [applyLoop, h]

theorem applyComponent_eq_step (vec : List Str) (seg : Str) (h : seg ≠ []) :
    applyComponent vec seg = stepSegment vec seg := by
  unfold applyComponent stepSegment
  by_cases h1 : seg = ['.']
  · simp [h1]
  · by_cases h2 : seg = ['.', '.']
    · cases vec <;> simp [h2]
    · simp [h, h1, h2]


/-- One iteration of the loop when no slash is left: the rest of the string is
the last component. -/
theorem applyLoop_last (pre suf : Str) (fuel : Nat) (vec : List Str)
    (hne : suf ≠ []) (hs : '/' ∉ suf) (hl : (pre ++ suf).length < npos) :
    applyLoop (pre ++ suf) (fuel + 1) vec pre.length = .ok (applyComponent vec suf) := by
  have hpos : 0 < suf.length := List.length_pos.mpr hne
  have hlt : pre.length < (pre ++ suf).length := by simp; omega
  have hsub : substr (pre ++ suf) pre.length ((pre ++ suf).length - pre.length) = .ok suf := by
    have := substr_at_append pre suf []
    simpa using this
  rw [applyLoop]
  simp only [if_pos hlt, find_at_append, findAux_of_not_mem _ _ _ hs, if_true, gt_iff_lt, hsub]
  rw [applyLoop_done]
  rw [sizeAdd_one_of_lt hl]
  omega

/-- One iteration of the loop when a slash is ahead: the text before it is the
component (skipped when empty) and the scan resumes after the slash. -/
theorem applyLoop_mid (pre seg rest : Str) (fuel : Nat) (vec : List Str)
    (hs : '/' ∉ seg) (hl : (pre ++ (seg ++ '/' :: rest)).length < npos) :
    applyLoop (pre ++ (seg ++ '/' :: rest)) (fuel + 1) vec pre.length
      = applyLoop (pre ++ (seg ++ '/' :: rest)) fuel (stepSegment vec seg)
          (pre.length + seg.length + 1) := by
  have hlen : (pre ++ (seg ++ '/' :: rest)).length
      = pre.length + seg.length + 1 + rest.length := by simp; omega
  have hlt : pre.length < (pre ++ (seg ++ '/' :: rest)).length := by omega
  have hi : pre.length + seg.length ≠ npos := by omega
  have hi2 : pre.length + seg.length < npos := by omega
  rw [applyLoop]
  simp only [if_pos hlt, find_at_append, findAux_append _ _ _ _ hs, if_neg hi, gt_iff_lt,
    sizeAdd_one_of_lt hi2]
  by_cases he : seg = []
  · subst he
    simp [stepSegment]
  · have hpos : 0 < seg.length := List.length_pos.mpr he
    have hgt : pre.length < pre.length + seg.length := by omega
    have hsub : substr (pre ++ (seg ++ '/' :: rest)) pre.length
        (pre.length + seg.length - pre.length) = .ok seg := by
      have := substr_at_append pre seg ('/' :: rest)
      simpa using this
    simp only [if_pos hgt, hsub, applyComponent_eq_step vec seg he]

/-- The index loop computes the left fold of `stepSegment` over the segments of
the text from `start` on, given at least as much fuel as characters left. -/
theorem applyLoop_eq_fold (fuel : Nat) : ∀ (pre suf : Str) (vec : List Str),
    suf.length ≤ fuel → (pre ++ suf).length < npos →
    applyLoop (pre ++ suf) fuel vec pre.length
      = .ok ((splitSlash suf).foldl stepSegment vec) := by
  induction fuel with
  | zero =>
    intro pre suf vec hf _
    have he : suf = [] := List.length_eq_zero.mp (by omega)
    subst he
    rw [applyLoop_done _ _ _ _ (by simp)]
    simp [splitSlash, stepSegment]
  | succ n ih =>
    intro pre suf vec hf hl
    rcases exists_first_slash suf with h | ⟨seg, rest, hs, hseg⟩
    · by_cases he : suf = []
      · subst he
        rw [applyLoop_done _ _ _ _ (by simp)]
        simp [splitSlash, stepSegment]
      · rw [applyLoop_last pre suf n vec he h hl, splitSlash_of_not_mem suf h,
          applyComponent_eq_step vec suf he]
        simp
    · subst hs
      rw [applyLoop_mid pre seg rest n vec hseg hl, splitSlash_append seg rest hseg]
      have e1 : pre ++ (seg ++ '/' :: rest) = (pre ++ (seg ++ ['/'])) ++ rest := by simp
      have e2 : pre.length + seg.length + 1 = (pre ++ (seg ++ ['/'])).length := by
        simp; omega
      rw [e1, e2, ih (pre ++ (seg ++ ['/'])) rest (stepSegment vec seg)
        (by simp at hf; omega) (by rw [← e1]; exact hl)]
      simp

/-- The function `ApplyPathStringToComponentsVector` returns `true` and folds
`stepSegment` over the segments of its argument. -/
theorem ApplyPath_eq_fold (vec : List Str) (s : Str) (hl : s.length < npos) :
    ApplyPathStringToComponentsVector vec s
      = .ok (true, (splitSlash s).foldl stepSegment vec) := by
  have h := applyLoop_eq_fold s.length [] s vec (le_refl _) (by simpa using hl)
  simp only [List.nil_append, List.length_nil] at h
  simp [ApplyPathStringToComponentsVector, h]


/-! ## The four outcomes of `RealPath` -/

theorem substr_zero_append (pre rest : Str) :
    substr (pre ++ rest) 0 pre.length = .ok pre := by
  simp [substr]

theorem substr_tail_append (pre rest : Str) (hl : (pre ++ rest).length < npos) :
    substr (pre ++ rest) pre.length npos = .ok rest := by
  have h : ¬ pre.length > (pre ++ rest).length := by simp
  have h2 : rest.length ≤ npos := by simp at hl; omega
  simp [substr, List.take_of_length_le h2]

theorem realPathFinish_eq (pfx s : Str) (vec : List Str) (hl : s.length < npos) :
    realPathFinish pfx s vec
      = .ok (some (appendComponents pfx ((splitSlash s).foldl stepSegment vec))) := by
  simp [realPathFinish, ApplyPath_eq_fold vec s hl]

/-- Empty input: the current directory is returned as it is. -/
theorem RealPath_empty (cd : Str) : RealPath cd [] = .ok (some cd) := by
  simp [RealPath]

/-- Input that is all prefix: returned as it is. -/
theorem RealPath_allPrefix (cd p : Str) (hp : ':' ∉ p)
    (hl : (p ++ [':']).length < npos) :
    RealPath cd (p ++ [':']) = .ok (some (p ++ [':'])) := by
  have hlen : (p ++ [':']).length = p.length + 1 := by simp
  have hf : find (p ++ [':']) ':' 0 = p.length := by
    rw [find_zero, findAux_append _ _ _ _ hp]; simp
  have hne : ¬ (p ++ [':']).length = 0 := by omega
  unfold RealPath
  rw [if_neg hne]
  simp only [hf, sizeAdd_one_of_lt (show p.length < npos by omega), hlen, if_true]

/-- Absolute input: the prefix of the input followed by its normalised components. -/
theorem RealPath_absolute (cd p rest : Str) (hp : ':' ∉ p) (hr : rest ≠ [])
    (hl : (p ++ ':' :: rest).length < npos) :
    RealPath cd (p ++ ':' :: rest)
      = .ok (some (appendComponents (p ++ [':'])
          ((splitSlash rest).foldl stepSegment []))) := by
  have hpos : 0 < rest.length := List.length_pos.mpr hr
  have hlen : (p ++ ':' :: rest).length = p.length + 1 + rest.length := by simp; omega
  have hf : find (p ++ ':' :: rest) ':' 0 = p.length := by
    rw [find_zero, findAux_append _ _ _ _ hp]; simp
  have hne : ¬ (p ++ ':' :: rest).length = 0 := by omega
  have h1 : ¬ p.length + 1 = (p ++ ':' :: rest).length := by omega
  have h2 : ¬ p.length = npos := by omega
  have e : p ++ ':' :: rest = (p ++ [':']) ++ rest := by simp
  have hs1 : substr (p ++ ':' :: rest) 0 (p.length + 1) = .ok (p ++ [':']) := by
    have := substr_zero_append (p ++ [':']) rest
    simpa using this
  have hs2 : substr (p ++ ':' :: rest) (p.length + 1) npos = .ok rest := by
    have := substr_tail_append (p ++ [':']) rest (by rw [← e]; exact hl)
    simpa using this
  unfold RealPath
  simp only [hne, if_false, hf, sizeAdd_one_of_lt (show p.length < npos by omega), h1, h2,
    hs1, hs2]
  exact realPathFinish_eq _ _ _ (by omega)

/-- Relative input with a current directory that has no prefix: failure. -/
theorem RealPath_relative_none (cd inPath : Str) (hne : inPath ≠ [])
    (hin : ':' ∉ inPath) (hcd : ':' ∉ cd) :
    RealPath cd inPath = .ok none := by
  have hpos : 0 < inPath.length := List.length_pos.mpr hne
  have hne0 : ¬ inPath.length = 0 := by omega
  have hf : find inPath ':' 0 = npos := by
    rw [find_zero, findAux_of_not_mem _ _ _ hin]
  have hf2 : find cd ':' 0 = npos := by
    rw [find_zero, findAux_of_not_mem _ _ _ hcd]
  have h1 : ¬ 0 = inPath.length := by omega
  unfold RealPath
  simp only [hne0, if_false, hf, sizeAdd_npos_one, h1, if_true, hf2]
  split <;> rfl

/-- Relative input with a current directory `q:after`: the prefix of the
current directory followed by the components of `after` and then of the input,
normalised. -/
theorem RealPath_relative (q after inPath : Str) (hne : inPath ≠ [])
    (hin : ':' ∉ inPath) (hq : ':' ∉ q) (hl : inPath.length < npos)
    (hl2 : (q ++ ':' :: after).length < npos) :
    RealPath (q ++ ':' :: after) inPath
      = .ok (some (appendComponents (q ++ [':'])
          ((splitSlash inPath).foldl stepSegment
            ((splitSlash after).foldl stepSegment [])))) := by
  have hpos : 0 < inPath.length := List.length_pos.mpr hne
  have hne0 : ¬ inPath.length = 0 := by omega
  have hf : find inPath ':' 0 = npos := by
    rw [find_zero, findAux_of_not_mem _ _ _ hin]
  have h1 : ¬ 0 = inPath.length := by omega
  have hlen : (q ++ ':' :: after).length = q.length + 1 + after.length := by simp; omega
  have hf2 : find (q ++ ':' :: after) ':' 0 = q.length := by
    rw [find_zero, findAux_append _ _ _ _ hq]; simp
  have hc0 : ¬ (q ++ ':' :: after).length = 0 := by omega
  have hc1 : ¬ q.length = npos := by omega
  have e : q ++ ':' :: after = (q ++ [':']) ++ after := by simp
  have hs1 : substr (q ++ ':' :: after) 0 (q.length + 1) = .ok (q ++ [':']) := by
    have := substr_zero_append (q ++ [':']) after
    simpa using this
  have hs2 : substr (q ++ ':' :: after) (q.length + 1) npos = .ok after := by
    have := substr_tail_append (q ++ [':']) after (by rw [← e]; exact hl2)
    simpa using this
  unfold RealPath
  simp only [hne0, if_false, hf, sizeAdd_npos_one, h1, if_true, hc0, hf2, hc1,
    sizeAdd_one_of_lt (show q.length < npos by omega), hs1, hs2]
  by_cases ha : after = []
  · subst ha
    have : q.length + 1 = (q ++ [':']).length := by simp
    simp only [this, if_true]
    rw [realPathFinish_eq _ _ _ hl]
    simp [splitSlash, stepSegment]
  · have hap : 0 < after.length := List.length_pos.mpr ha
    have h3 : ¬ q.length + 1 = (q ++ ':' :: after).length := by omega
    simp only [h3, if_false, ApplyPath_eq_fold [] after (by omega)]
    exact realPathFinish_eq _ _ _ hl


/-- Outside the failing case, `RealPath` returns true. -/
theorem RealPath_true_of (cd inPath : Str) (hin : inPath.length < npos)
    (hcd : cd.length < npos) :
    ¬ (inPath ≠ [] ∧ ':' ∉ inPath ∧ ':' ∉ cd) →
      ∃ out, RealPath cd inPath = .ok (some out) := by
  intro hn
  by_cases he : inPath = []
  · subst he; exact ⟨cd, RealPath_empty cd⟩
  · by_cases hc : ':' ∈ inPath
    · obtain ⟨p, rest, hs, hp⟩ := List.eq_append_cons_of_mem hc
      subst hs
      by_cases hr : rest = []
      · subst hr
        exact ⟨_, RealPath_allPrefix cd p hp hin⟩
      · exact ⟨_, RealPath_absolute cd p rest hp hr hin⟩
    · have hcd2 : ':' ∈ cd := by
        by_contra hcd2
        exact hn ⟨he, hc, hcd2⟩
      obtain ⟨q, after, hs, hq⟩ := List.eq_append_cons_of_mem hcd2
      subst hs
      exact ⟨_, RealPath_relative q after inPath he hc hq hin hcd⟩

/-- On strings shorter than `npos`, `RealPath` returns and does not throw. -/
theorem RealPath_returns (cd inPath : Str) (hin : inPath.length < npos)
    (hcd : cd.length < npos) : ∃ r, RealPath cd inPath = .ok r := by
  by_cases h : inPath ≠ [] ∧ ':' ∉ inPath ∧ ':' ∉ cd
  · exact ⟨none, RealPath_relative_none cd inPath h.1 h.2.1 h.2.2⟩
  · obtain ⟨out, ho⟩ := RealPath_true_of cd inPath hin hcd h
    exact ⟨some out, ho⟩

theorem stepSegment_ordinary (stack : List Str) (x : Str) (h : ordinary x) :
    stepSegment stack x = stack ++ [x] := by
  obtain ⟨h1, _, h3, h4⟩ := h
  simp [stepSegment, h1, h3, h4]

/-! ## Lemmas on segments -/

theorem splitSlash_eq_splitOn (s : Str) : splitSlash s = s.splitOn '/' := by
  induction s with
  | nil => simp [splitSlash]
  | cons c cs ih =>
    have e : (c :: cs).splitOn '/'
        = if (c == '/') = true then [] :: cs.splitOn '/'
          else (cs.splitOn '/').modifyHead (List.cons c) := by
      simp only [List.splitOn]
      exact List.splitOnP_cons _ c cs
    rw [e, ← ih]
    by_cases h : c = '/'
    · simp [splitSlash, h]
    · have hb : ¬ ((c == '/') = true) := by simpa using h
      rw [if_neg hb]
      cases hs : splitSlash cs with
      | nil => exact absurd hs (splitSlash_ne_nil cs)
      | cons seg segs => simp [splitSlash, h, hs]

theorem splitSlash_append_slash (x y : Str) :
    splitSlash (x ++ '/' :: y) = splitSlash x ++ splitSlash y := by
  induction x with
  | nil => simp [splitSlash]
  | cons c cs ih =>
    by_cases h : c = '/'
    · simp [splitSlash, h, ih]
    · cases hs : splitSlash cs with
      | nil => exact absurd hs (splitSlash_ne_nil cs)
      | cons seg segs => simp [splitSlash, h, ih, hs]

theorem appendComponents_eq (pfx : Str) (cmpnts : List Str) :
    appendComponents pfx cmpnts = pfx ++ (cmpnts.map (fun c => '/' :: c)).flatten := by
  unfold appendComponents
  induction cmpnts generalizing pfx with
  | nil => simp
  | cons c cs ih =>
    simp only [List.foldl_cons, List.map_cons, List.flatten_cons]
    rw [ih]
    simp

theorem splitSlash_no_slash (s : Str) : ∀ seg ∈ splitSlash s, '/' ∉ seg := by
  induction s with
  | nil => simp [splitSlash]
  | cons c cs ih =>
    intro seg hseg
    by_cases h : c = '/'
    · simp only [splitSlash, h, if_true, List.mem_cons] at hseg
      rcases hseg with e | e
      · simp [e]
      · exact ih seg e
    · cases hs : splitSlash cs with
      | nil => exact absurd hs (splitSlash_ne_nil cs)
      | cons s1 segs =>
        rw [hs] at ih
        simp only [splitSlash, h, if_false, hs, List.mem_cons] at hseg
        rcases hseg with e | e
        · subst e
          have h1 := ih s1 (by simp)
          simp only [List.mem_cons, not_or]
          exact ⟨fun e2 => h e2.symm, h1⟩
        · exact ih seg (by simp [e])

theorem stepSegment_all_ordinary (stack : List Str) (seg : Str)
    (hst : ∀ c ∈ stack, ordinary c) (hseg : '/' ∉ seg) :
    ∀ c ∈ stepSegment stack seg, ordinary c := by
  unfold stepSegment
  split
  · exact hst
  · split
    · exact hst
    · split
      · intro c hc
        exact hst c (List.mem_of_mem_dropLast hc)
      · rename_i h1 h2 h3
        intro c hc
        rcases List.mem_append.mp hc with e | e
        · exact hst c e
        · simp only [List.mem_singleton] at e
          subst e
          exact ⟨h1, hseg, h2, h3⟩

theorem foldl_stepSegment_all_ordinary (segs : List Str) :
    ∀ stack : List Str, (∀ c ∈ stack, ordinary c) → (∀ seg ∈ segs, '/' ∉ seg) →
      ∀ c ∈ segs.foldl stepSegment stack, ordinary c := by
  induction segs with
  | nil => intro stack hst _; simpa using hst
  | cons seg rest ih =>
    intro stack hst hsegs
    simp only [List.foldl_cons]
    exact ih _ (stepSegment_all_ordinary stack seg hst (hsegs seg (by simp)))
      (fun s hs => hsegs s (by simp [hs]))

/-- The stack that `RealPath` ends with holds ordinary components only. -/
theorem normalised_all_ordinary (after s : Str) :
    ∀ c ∈ (splitSlash s).foldl stepSegment ((splitSlash after).foldl stepSegment []),
      ordinary c :=
  foldl_stepSegment_all_ordinary _ _
    (foldl_stepSegment_all_ordinary _ _ (by simp) (splitSlash_no_slash after))
    (splitSlash_no_slash s)

/-- On a non-empty input, an output of `RealPath` is canonical. -/
theorem RealPath_canonical (cd inPath out : Str) (hne : inPath ≠ [])
    (hin : inPath.length < npos) (hcd : cd.length < npos)
    (h : RealPath cd inPath = .ok (some out)) : canonical out := by
  by_cases hc : ':' ∈ inPath
  · obtain ⟨p, rest, hs, hp⟩ := List.eq_append_cons_of_mem hc
    subst hs
    by_cases hr : rest = []
    · subst hr
      rw [RealPath_allPrefix cd p hp hin] at h
      simp only [Except.ok.injEq, Option.some.injEq] at h
      exact ⟨p, [], hp, by simp, by simp [← h]⟩
    · rw [RealPath_absolute cd p rest hp hr hin] at h
      simp only [Except.ok.injEq, Option.some.injEq] at h
      refine ⟨p, _, hp, ?_, by rw [← h, appendComponents_eq]⟩
      have := normalised_all_ordinary [] rest
      simpa [splitSlash, stepSegment] using this
  · by_cases hcd2 : ':' ∈ cd
    · obtain ⟨q, after, hs, hq⟩ := List.eq_append_cons_of_mem hcd2
      subst hs
      rw [RealPath_relative q after inPath hne hc hq hin hcd] at h
      simp only [Except.ok.injEq, Option.some.injEq] at h
      exact ⟨q, _, hq, normalised_all_ordinary after inPath,
        by rw [← h, appendComponents_eq]⟩
    · rw [RealPath_relative_none cd inPath hne hc hcd2] at h
      cases h

theorem splitSlash_joined (cs : List Str) (hcs : ∀ c ∈ cs, '/' ∉ c) :
    ∀ c : Str, '/' ∉ c →
      splitSlash (c ++ (cs.map (fun c => '/' :: c)).flatten) = c :: cs := by
  induction cs with
  | nil => intro c hc; simpa using splitSlash_of_not_mem c hc
  | cons c2 rest ih =>
    intro c hc
    have h2 : '/' ∉ c2 := hcs c2 (by simp)
    have hrest : ∀ c ∈ rest, '/' ∉ c := fun c h => hcs c (by simp [h])
    have e : c ++ ((c2 :: rest).map (fun c => '/' :: c)).flatten
        = c ++ '/' :: (c2 ++ (rest.map (fun c => '/' :: c)).flatten) := by simp
    rw [e, splitSlash_append c _ hc, ih hrest c2 h2]

theorem foldl_stepSegment_ordinary (cs : List Str) (hcs : ∀ c ∈ cs, ordinary c) :
    ∀ stack : List Str, cs.foldl stepSegment stack = stack ++ cs := by
  induction cs with
  | nil => intro stack; simp
  | cons c rest ih =>
    intro stack
    simp only [List.foldl_cons]
    rw [stepSegment_ordinary stack c (hcs c (by simp)),
      ih (fun c h => hcs c (by simp [h]))]
    simp

/-- A canonical path is returned as it is by `RealPath`, whatever the current
directory. -/
theorem RealPath_of_canonical (cd q : Str) (hq : canonical q) (hl : q.length < npos) :
    RealPath cd q = .ok (some q) := by
  obtain ⟨p, cs, hp, hcs, rfl⟩ := hq
  cases cs with
  | nil =>
    have := RealPath_allPrefix cd p hp (by simpa using hl)
    simpa using this
  | cons c rest =>
    have hslash : ∀ c2 ∈ c :: rest, '/' ∉ c2 := fun c2 h => (hcs c2 h).2.1
    have e : p ++ [':'] ++ ((c :: rest).map (fun c => '/' :: c)).flatten
        = p ++ ':' :: ([] ++ ((c :: rest).map (fun c => '/' :: c)).flatten) := by simp
    rw [e] at hl ⊢
    rw [RealPath_absolute cd p _ hp (by simp) hl, splitSlash_joined _ hslash [] (by simp)]
    rw [List.foldl_cons, show stepSegment [] [] = [] from rfl,
      foldl_stepSegment_ordinary _ hcs, appendComponents_eq]
    simp

/-! ## Lemmas on `strncasecmp` and the mount scan -/

theorem char_toNat_inj {a b : Char} (h : a.toNat = b.toNat) : a = b := by
  rw [← Char.ofNat_toNat a, ← Char.ofNat_toNat b, h]

theorem tolower_NUL : tolower NUL = NUL := by decide

theorem tolower_ne_NUL {c : Char} (h : c ≠ NUL) : tolower c ≠ NUL := by
  unfold tolower
  split
  · rename_i hr
    obtain ⟨h1, h2⟩ := hr
    generalize c.toNat = n at h1 h2
    interval_cases n <;> decide
  · exact h

theorem diff_eq_zero_iff (a b : Char) :
    ((a.toNat : Int) - (b.toNat : Int) = 0) ↔ a = b := by
  constructor
  · intro h
    exact char_toNat_inj (by omega)
  · intro h; subst h; omega

theorem strncasecmp_eq_zero_iff (pfx : Str) (hnul : NUL ∉ pfx) :
    ∀ path : Str, strncasecmp pfx path pfx.length = 0 ↔ ciPrefix pfx path := by
  induction pfx with
  | nil => intro path; simp [strncasecmp, ciPrefix]
  | cons x xs ih =>
    intro path
    have hx : x ≠ NUL := fun e => hnul (by simp [e])
    have hxs : NUL ∉ xs := fun e => hnul (by simp [e])
    cases path with
    | nil =>
      have h1 : tolower x ≠ tolower NUL := by rw [tolower_NUL]; exact tolower_ne_NUL hx
      have h2 : ¬ ((tolower x).toNat : Int) - ((tolower NUL).toNat : Int) = 0 := by
        rw [diff_eq_zero_iff]; exact h1
      simp only [List.length_cons, strncasecmp, List.headD_cons, List.headD_nil, ne_eq, h2,
        not_false_eq_true, if_true, ciPrefix]
      simp
    | cons y ys =>
      simp only [List.length_cons, strncasecmp, List.headD_cons, ne_eq, List.tail_cons, ciPrefix,
        List.take_succ_cons, List.map_cons, List.cons.injEq]
      by_cases hxy : tolower x = tolower y
      · simp only [hxy, sub_self, not_true_eq_false, if_false, hx, true_and]
        exact ih hxs ys
      · have h2 : ¬ ((tolower x).toNat : Int) - ((tolower y).toNat : Int) = 0 := by
          rw [diff_eq_zero_iff]; exact hxy
        simp only [h2, not_false_eq_true, if_true, hxy, false_and]

theorem ciPrefix_length_le {pfx path : Str} (h : ciPrefix pfx path) :
    pfx.length ≤ path.length := by
  have := congrArg List.length h
  simp at this
  omega

theorem substr_drop (s : Str) (pos : Nat) (hpos : pos ≤ s.length) (hl : s.length < npos) :
    substr s pos npos = .ok (s.drop pos) := by
  have h : ¬ pos > s.length := by omega
  have h2 : (s.drop pos).length ≤ npos := by simp; omega
  simp [substr, h, List.take_of_length_le h2]

theorem scanMounts_hit (path : Str) (mp : MountPoint) (rest : List MountPoint) (k : Nat)
    (hnul : NUL ∉ mp.pfx) (hl : path.length < npos) (h : ciPrefix mp.pfx path) :
    scanMounts path (mp :: rest) k = .ok (some (path.drop mp.pfx.length, k)) := by
  have h0 := (strncasecmp_eq_zero_iff mp.pfx hnul path).mpr h
  simp [scanMounts, h0, substr_drop path _ (ciPrefix_length_le h) hl]

theorem scanMounts_miss (path : Str) (mp : MountPoint) (rest : List MountPoint) (k : Nat)
    (hnul : NUL ∉ mp.pfx) (h : ¬ ciPrefix mp.pfx path) :
    scanMounts path (mp :: rest) k = scanMounts path rest (k + 1) := by
  have h0 : ¬ strncasecmp mp.pfx path mp.pfx.length = 0 :=
    fun e => h ((strncasecmp_eq_zero_iff mp.pfx hnul path).mp e)
  simp [scanMounts, h0]

/-- The mount scan from index `k`: it returns binding `k + j` exactly when `j`
is the first position whose prefix matches, it returns false exactly when no
prefix matches, and it never throws. -/
theorem scanMounts_spec (path : Str) (hl : path.length < npos) :
    ∀ (mounts : List MountPoint) (k : Nat), (∀ mp ∈ mounts, NUL ∉ mp.pfx) →
      (∀ out i, scanMounts path mounts k = .ok (some (out, i)) ↔
        ∃ j mp, i = k + j ∧ mounts[j]? = some mp ∧ ciPrefix mp.pfx path
          ∧ out = path.drop mp.pfx.length
          ∧ ∀ j2 mq, j2 < j → mounts[j2]? = some mq → ¬ ciPrefix mq.pfx path)
      ∧ (scanMounts path mounts k = .ok none ↔ ∀ mp ∈ mounts, ¬ ciPrefix mp.pfx path)
      ∧ (∃ r, scanMounts path mounts k = .ok r) := by
  intro mounts
  induction mounts with
  | nil =>
    intro k _
    refine ⟨fun out i => ?_, by simp [scanMounts], ⟨none, by simp [scanMounts]⟩⟩
    simp [scanMounts]
  | cons mp rest ih =>
    intro k hnul
    have hmp : NUL ∉ mp.pfx := hnul mp (by simp)
    have hrest : ∀ mq ∈ rest, NUL ∉ mq.pfx := fun mq hq => hnul mq (by simp [hq])
    by_cases hm : ciPrefix mp.pfx path
    · rw [scanMounts_hit path mp rest k hmp hl hm]
      refine ⟨fun out i => ⟨fun h => ?_, fun h => ?_⟩, ?_, ⟨_, rfl⟩⟩
      · simp only [Except.ok.injEq, Option.some.injEq, Prod.mk.injEq] at h
        refine ⟨0, mp, by omega, by simp, hm, h.1.symm, ?_⟩
        intro j2 mq hj; omega
      · obtain ⟨j, mq, hi, hj, _, hout, hfirst⟩ := h
        cases j with
        | zero =>
          simp only [List.getElem?_cons_zero, Option.some.injEq] at hj
          subst hj
          simp [hi, hout]
        | succ j => exact absurd hm (hfirst 0 mp (by omega) (by simp))
      · constructor
        · intro h; cases h
        · intro h; exact absurd hm (h mp (by simp))
    · rw [scanMounts_miss path mp rest k hmp hm]
      obtain ⟨ih1, ih2, ih3⟩ := ih (k + 1) hrest
      refine ⟨fun out i => ?_, ?_, ih3⟩
      · rw [ih1 out i]
        constructor
        · rintro ⟨j, mq, hi, hj, hc, hout, hfirst⟩
          refine ⟨j + 1, mq, by omega, by simpa using hj, hc, hout, ?_⟩
          intro j2 mr hlt hj2
          cases j2 with
          | zero =>
            simp only [List.getElem?_cons_zero, Option.some.injEq] at hj2
            subst hj2; exact hm
          | succ j2 =>
            exact hfirst j2 mr (by omega) (by simpa using hj2)
        · rintro ⟨j, mq, hi, hj, hc, hout, hfirst⟩
          cases j with
          | zero =>
            simp only [List.getElem?_cons_zero, Option.some.injEq] at hj
            subst hj; exact absurd hc hm
          | succ j =>
            refine ⟨j, mq, by omega, by simpa using hj, hc, hout, ?_⟩
            intro j2 mr hlt hj2
            exact hfirst (j2 + 1) mr (by omega) (by simpa using hj2)
      · rw [ih2]
        constructor
        · intro h mq hq
          rcases List.mem_cons.mp hq with e | e
          · subst e; exact hm
          · exact h mq e
        · intro h mq hq
          exact h mq (by simp [hq])

/-- What `MapFilePath` does once the `host0:` test has failed and `RealPath` has
returned true: the mount scan on the normalised path. -/
theorem MapFilePath_of_RealPath (m : MetaFileSystem) (t : Int) (inpath realpath : Str)
    (hh : strncasecmp inpath host0 5 ≠ 0)
    (hr : RealPath (currentDirectoryOf m t) inpath = .ok (some realpath)) :
    MapFilePath m t inpath = scanMounts realpath m.fileSystems 0 := by
  simp [MapFilePath, hh, hr]

/-- The mount scan returns the index of an existing binding. -/
theorem scanMounts_index (path : Str) :
    ∀ (mounts : List MountPoint) (k : Nat) (out : Str) (i : Nat),
      scanMounts path mounts k = .ok (some (out, i)) →
        k ≤ i ∧ ∃ mp, mounts[i - k]? = some mp := by
  intro mounts
  induction mounts with
  | nil => intro k out i h; simp [scanMounts] at h
  | cons mp rest ih =>
    intro k out i h
    unfold scanMounts at h
    simp only at h
    split at h
    · split at h
      · cases h
      · simp only [Except.ok.injEq, Option.some.injEq, Prod.mk.injEq] at h
        obtain ⟨_, hi⟩ := h
        subst hi
        exact ⟨le_refl _, mp, by simp⟩
    · obtain ⟨hk, mq, hq⟩ := ih (k + 1) out i h
      refine ⟨by omega, mq, ?_⟩
      have e : i - k = (i - (k + 1)) + 1 := by omega
      rw [e]
      simpa using hq

/-- When `MapFilePath` returns true, the binding it points to exists. -/
theorem MapFilePath_index (m : MetaFileSystem) (t : Int) (dir out : Str) (i : Nat)
    (h : MapFilePath m t dir = .ok (some (out, i))) :
    ∃ mp, m.fileSystems[i]? = some mp := by
  unfold MapFilePath at h
  simp only at h
  split at h
  · cases h
  · split at h
    · cases h
    · cases h
    · obtain ⟨_, mp, hmp⟩ := scanMounts_index _ _ _ _ _ h
      exact ⟨mp, by simpa using hmp⟩

/-- With prefixes that are C strings, the mount scan returns and does not throw. -/
theorem scanMounts_returns (path : Str) :
    ∀ (mounts : List MountPoint) (k : Nat), (∀ mp ∈ mounts, NUL ∉ mp.pfx) →
      ∃ r, scanMounts path mounts k = .ok r := by
  intro mounts
  induction mounts with
  | nil => intro k _; exact ⟨none, by simp [scanMounts]⟩
  | cons mp rest ih =>
    intro k hnul
    have hmp : NUL ∉ mp.pfx := hnul mp (by simp)
    have hrest : ∀ mq ∈ rest, NUL ∉ mq.pfx := fun mq hq => hnul mq (by simp [hq])
    by_cases hm : ciPrefix mp.pfx path
    · have h0 := (strncasecmp_eq_zero_iff mp.pfx hmp path).mpr hm
      have hle : ¬ mp.pfx.length > path.length := by
        have := ciPrefix_length_le hm
        omega
      refine ⟨some ((path.drop mp.pfx.length).take npos, k), ?_⟩
      simp only [scanMounts, h0, if_true, substr, hle, if_false]
    · rw [scanMounts_miss path mp rest k hmp hm]
      exact ih (k + 1) hrest

/-- Apart from inputs that pass the `host0:` test with fewer than six
characters, `MapFilePath` returns (true or false) and does not throw, for mount
prefixes that are C strings and strings shorter than `npos`. -/
theorem MapFilePath_returns (m : MetaFileSystem) (t : Int) (inpath : Str)
    (hnul : ∀ mp ∈ m.fileSystems, NUL ∉ mp.pfx) (hl : inpath.length < npos)
    (hcd : (currentDirectoryOf m t).length < npos)
    (hh : ¬ (strncasecmp inpath host0 5 = 0 ∧ inpath.length < 6)) :
    ∃ r, MapFilePath m t inpath = .ok r := by
  have tail : ∀ s : Str, s.length < npos →
      ∃ r, (match RealPath (currentDirectoryOf m t) s with
        | .error e => .error e
        | .ok none => .ok none
        | .ok (some realpath) => scanMounts realpath m.fileSystems 0) = Except.ok r := by
    intro s hs
    obtain ⟨r, hr⟩ := RealPath_returns (currentDirectoryOf m t) s hs hcd
    rw [hr]
    cases r with
    | none => exact ⟨none, rfl⟩
    | some realpath => exact scanMounts_returns realpath m.fileSystems 0 hnul
  unfold MapFilePath
  by_cases h0 : strncasecmp inpath host0 5 = 0
  · have h6 : ¬ 6 > inpath.length := by
      intro h; exact hh ⟨h0, by omega⟩
    simp only [h0, if_true, substr, h6, if_false]
    exact tail _ (by simp; omega)
  · simp only [h0, if_false]
    exact tail _ hl

/-! ## Lemmas on the set built by `Shutdown` -/

theorem mem_setInsert (x y : Nat) (s : List Nat) :
    y ∈ setInsert x s ↔ y = x ∨ y ∈ s := by
  induction s with
  | nil => simp [setInsert]
  | cons z zs ih =>
    unfold setInsert
    split
    · simp
    · split
      · rename_i _ hxz
        subst hxz
        simp
      · simp only [List.mem_cons, ih]
        tauto

theorem setInsert_sorted (x : Nat) (s : List Nat) (hs : s.Sorted (· < ·)) :
    (setInsert x s).Sorted (· < ·) := by
  induction s with
  | nil => simp [setInsert]
  | cons z zs ih =>
    have hz := List.sorted_cons.mp hs
    unfold setInsert
    split
    · rename_i hxz
      refine List.sorted_cons.mpr ⟨?_, hs⟩
      intro b hb
      rcases List.mem_cons.mp hb with e | e
      · omega
      · have := hz.1 b e
        omega
    · split
      · exact hs
      · rename_i h1 h2
        refine List.sorted_cons.mpr ⟨?_, ih hz.2⟩
        intro b hb
        rcases (mem_setInsert x b zs).mp hb with e | e
        · omega
        · exact hz.1 b e

theorem foldl_setInsert_spec (l : List MountPoint) :
    ∀ acc : List Nat, acc.Sorted (· < ·) →
      (l.foldl (fun set mp => setInsert mp.system set) acc).Sorted (· < ·)
      ∧ ∀ y, y ∈ l.foldl (fun set mp => setInsert mp.system set) acc
          ↔ y ∈ acc ∨ y ∈ l.map (fun mp => mp.system) := by
  induction l with
  | nil => intro acc h; simp [h]
  | cons mp rest ih =>
    intro acc h
    obtain ⟨h1, h2⟩ := ih (setInsert mp.system acc) (setInsert_sorted _ _ h)
    refine ⟨h1, fun y => ?_⟩
    simp only [List.foldl_cons, h2 y, mem_setInsert, List.map_cons, List.mem_cons]
    tauto

theorem toDelete_spec (l : List MountPoint) :
    (toDelete l).Nodup ∧ ∀ y, y ∈ toDelete l ↔ y ∈ l.map (fun mp => mp.system) := by
  obtain ⟨h1, h2⟩ := foldl_setInsert_spec l [] (by simp)
  exact ⟨h1.nodup, fun y => by simpa using h2 y⟩

/-! ## Lemmas on the handle scan -/

/-- When every mounted filesystem exists and disclaims the handle, the scan
asks each of them once, in mount order, and returns the null pointer. -/
theorem handleOwnerLoop_unowned (objects : Objects) (handle : Nat) :
    ∀ mounts : List MountPoint,
      (∀ mp ∈ mounts, ∃ fs, deref objects mp.system = some fs
        ∧ fs.OwnsHandle handle = false) →
      handleOwnerLoop objects handle mounts
        = (mounts.map (fun mp => Call.OwnsHandle mp.system handle), .ok 0) := by
  intro mounts
  induction mounts with
  | nil => intro _; rfl
  | cons mp rest ih =>
    intro h
    obtain ⟨fs, hfs, hown⟩ := h mp (by simp)
    have hrest := ih (fun mq hq => h mq (by simp [hq]))
    simp [handleOwnerLoop, hfs, hown, hrest]

/-- When binding `i` is the first whose filesystem claims the handle, the scan
asks the filesystems of bindings `0..i`, in order, and returns that of
binding `i`. -/
theorem handleOwnerLoop_owned (objects : Objects) (handle : Nat) :
    ∀ (mounts : List MountPoint) (i : Nat) (mp : MountPoint) (fs : IFileSystem),
      mounts[i]? = some mp → deref objects mp.system = some fs →
      fs.OwnsHandle handle = true →
      (∀ j mq, j < i → mounts[j]? = some mq →
        ∃ fq, deref objects mq.system = some fq ∧ fq.OwnsHandle handle = false) →
      handleOwnerLoop objects handle mounts
        = ((mounts.take (i + 1)).map (fun mp => Call.OwnsHandle mp.system handle),
            .ok mp.system) := by
  intro mounts
  induction mounts with
  | nil => intro i mp fs h; simp at h
  | cons m0 rest ih =>
    intro i mp fs hi hfs hown hbefore
    cases i with
    | zero =>
      simp only [List.getElem?_cons_zero, Option.some.injEq] at hi
      subst hi
      simp [handleOwnerLoop, hfs, hown]
    | succ i =>
      obtain ⟨f0, hf0, hown0⟩ := hbefore 0 m0 (by omega) (by simp)
      have hi2 : rest[i]? = some mp := by simpa using hi
      have hrest := ih i mp fs hi2 hfs hown
        (fun j mq hj hq => hbefore (j + 1) mq (by omega) (by simpa using hq))
      simp [handleOwnerLoop, hf0, hown0, hrest]

theorem deref_ne_zero {objects : Objects} {ptr : Nat} {fs : IFileSystem}
    (h : deref objects ptr = some fs) : ptr ≠ 0 := by
  intro e
  simp [deref, e] at h

/-! ## Claims -/

/-- C1: for a prefix `p:` whose only colon is its last character and ordinary
components `a`, `b`, `c`, and for every current directory, `RealPath` applied to
`p:/a/b/../c` returns true with output `p:/a/c`. -/
theorem C1_RealPath_parent_of_component (cd p a b c : Str) (hp : ':' ∉ p)
    (ha : ordinary a) (hb : ordinary b) (hc : ordinary c)
    (hl : (p ++ [':'] ++ ['/'] ++ a ++ ['/'] ++ b ++ ['/', '.', '.', '/'] ++ c).length
      < npos) :
    RealPath cd (p ++ [':'] ++ ['/'] ++ a ++ ['/'] ++ b ++ ['/', '.', '.', '/'] ++ c)
      = .ok (some (p ++ [':'] ++ ['/'] ++ a ++ ['/'] ++ c)) := by
  have e : p ++ [':'] ++ ['/'] ++ a ++ ['/'] ++ b ++ ['/', '.', '.', '/'] ++ c
      = p ++ ':' :: ([] ++ '/' :: (a ++ '/' :: (b ++ '/' :: (['.', '.'] ++ '/' :: c)))) := by
    simp
  rw [e] at hl ⊢
  rw [RealPath_absolute cd p _ hp (by simp) hl,
    splitSlash_append [] _ (by simp), splitSlash_append a _ ha.2.1,
    splitSlash_append b _ hb.2.1, splitSlash_append ['.', '.'] _ (by decide),
    splitSlash_of_not_mem c hc.2.1]
  simp only [List.foldl_cons, List.foldl_nil]
  rw [show stepSegment [] [] = [] from rfl, stepSegment_ordinary _ a ha,
    stepSegment_ordinary _ b hb, show stepSegment ([] ++ [a] ++ [b]) ['.', '.'] = [a] by
      simp [stepSegment],
    stepSegment_ordinary _ c hc]
  simp [appendComponents]

/-- C1 at `ms0:/PSP/GAME/../SAVEDATA` with current directory `umd0:/`. -/
theorem C1_RealPath_parent_of_component_witness :
    RealPath "umd0:/".toList "ms0:/PSP/GAME/../SAVEDATA".toList
      = .ok (some "ms0:/PSP/SAVEDATA".toList) :=
  C1_RealPath_parent_of_component "umd0:/".toList "ms0".toList "PSP".toList "GAME".toList
    "SAVEDATA".toList (by decide) (by decide) (by decide) (by decide) (by decide)

/-- C2: for a prefix `p:` whose only colon is its last character and an ordinary
component `x`, `RealPath` applied to `p:/../x` returns true with output `p:/x`:
the `..` met on the empty component stack is ignored. -/
theorem C2_RealPath_parent_of_root (cd p x : Str) (hp : ':' ∉ p) (hx : ordinary x)
    (hl : (p ++ [':'] ++ ['/', '.', '.', '/'] ++ x).length < npos) :
    RealPath cd (p ++ [':'] ++ ['/', '.', '.', '/'] ++ x)
      = .ok (some (p ++ [':'] ++ ['/'] ++ x)) := by
  have e : p ++ [':'] ++ ['/', '.', '.', '/'] ++ x
      = p ++ ':' :: ([] ++ '/' :: (['.', '.'] ++ '/' :: x)) := by
    simp
  rw [e] at hl ⊢
  rw [RealPath_absolute cd p _ hp (by simp) hl,
    splitSlash_append [] _ (by simp), splitSlash_append ['.', '.'] _ (by decide),
    splitSlash_of_not_mem x hx.2.1]
  simp only [List.foldl_cons, List.foldl_nil]
  rw [show stepSegment [] [] = [] from rfl,
    show stepSegment [] ['.', '.'] = [] from rfl, stepSegment_ordinary _ x hx]
  simp [appendComponents]

/-- C2 at `disc0:/../SYSDIR` with an empty current directory. -/
theorem C2_RealPath_parent_of_root_witness :
    RealPath [] "disc0:/../SYSDIR".toList = .ok (some "disc0:/SYSDIR".toList) :=
  C2_RealPath_parent_of_root [] "disc0".toList "SYSDIR".toList (by decide) (by decide)
    (by decide)

/-- C3: on strings shorter than `npos`, `RealPath` returns false exactly when the
input is non-empty and has no colon and the current directory has no colon;
for every other pair it returns true, and it never throws. -/
theorem C3_RealPath_fails_iff (cd inPath : Str) (hin : inPath.length < npos)
    (hcd : cd.length < npos) :
    (RealPath cd inPath = .ok none ↔ (inPath ≠ [] ∧ ':' ∉ inPath ∧ ':' ∉ cd))
    ∧ (¬ (inPath ≠ [] ∧ ':' ∉ inPath ∧ ':' ∉ cd) → ∃ out, RealPath cd inPath = .ok (some out)) := by
  have key := RealPath_true_of cd inPath hin hcd
  refine ⟨⟨fun h => ?_, fun h => RealPath_relative_none cd inPath h.1 h.2.1 h.2.2⟩, key⟩
  by_contra hn
  obtain ⟨out, ho⟩ := key hn
  rw [ho] at h
  cases h

/-- C3 at the relative input `x` with the current directory `ms0`, which has no
colon. -/
theorem C3_RealPath_fails_iff_witness :
    (RealPath "ms0".toList "x".toList = .ok none
      ↔ ("x".toList ≠ [] ∧ ':' ∉ "x".toList ∧ ':' ∉ "ms0".toList))
    ∧ (¬ ("x".toList ≠ [] ∧ ':' ∉ "x".toList ∧ ':' ∉ "ms0".toList) →
        ∃ out, RealPath "ms0".toList "x".toList = .ok (some out)) :=
  C3_RealPath_fails_iff "ms0".toList "x".toList (by decide) (by decide)

/-- C4, as stated, fails on a mount prefix with a NUL inside, which `Mount`
accepts like any `std::string`: `strncasecmp` reads `c_str()` and stops at the
NUL.  With the only prefix `ms0:` NUL `x` and the path `ms0:` no prefix equals
the leading characters of the path, yet the scan does not return false: the
comparison is zero and `realpath.substr(6)` throws on the path of size 4.  With
the prefix `a` NUL `b` and the path `a` NUL `cd` the scan selects the binding,
with stripped path `d`, although the prefix is not a prefix of the path. -/
theorem C4_mount_scan_NUL_in_prefix :
    ¬ ciPrefix ("ms0:".toList ++ [NUL, 'x']) "ms0:".toList
    ∧ scanMounts "ms0:".toList [{ pfx := "ms0:".toList ++ [NUL, 'x'], system := 1 }] 0
        = .error .out_of_range
    ∧ ¬ ciPrefix ("a".toList ++ NUL :: "b".toList) ("a".toList ++ NUL :: "cd".toList)
    ∧ scanMounts ("a".toList ++ NUL :: "cd".toList)
          [{ pfx := "a".toList ++ NUL :: "b".toList, system := 1 }] 0
        = .ok (some ("d".toList, 0)) := by
  decide

/-- C4, amended: for a mount list whose prefixes hold no NUL character and a
normalised path, the mount scan of `MapFilePath` returns binding `i` with
stripped path `out` exactly when `i` is the lowest index whose prefix equals,
ignoring case, the leading characters of the path and `out` is the path after
that many characters; it returns false exactly when no binding matches, and it
never throws.  With `a:` and `a:/sub` mounted in that order, `a:/sub/file`
resolves to binding 0 with stripped path `/sub/file`. -/
theorem C4_mount_scan_first_match (mounts : List MountPoint) (path : Str)
    (hnul : ∀ mp ∈ mounts, NUL ∉ mp.pfx) (hl : path.length < npos) :
    (∀ out i, scanMounts path mounts 0 = .ok (some (out, i)) ↔
      ∃ mp, mounts[i]? = some mp ∧ ciPrefix mp.pfx path
        ∧ out = path.drop mp.pfx.length
        ∧ ∀ j mq, j < i → mounts[j]? = some mq → ¬ ciPrefix mq.pfx path)
    ∧ (scanMounts path mounts 0 = .ok none ↔ ∀ mp ∈ mounts, ¬ ciPrefix mp.pfx path)
    ∧ (∃ r, scanMounts path mounts 0 = .ok r)
    ∧ (∀ (m0 : MetaFileSystem) (t : Int) (fs1 fs2 : Nat), m0.fileSystems = [] →
        MapFilePath (Mount (Mount m0 "a:".toList fs1) "a:/sub".toList fs2) t
            "a:/sub/file".toList
          = .ok (some ("/sub/file".toList, 0))) := by
  obtain ⟨h1, h2, h3⟩ := scanMounts_spec path hl mounts 0 hnul
  refine ⟨fun out i => ?_, h2, h3, ?_⟩
  · rw [h1 out i]
    constructor
    · rintro ⟨j, mp, hi, hj, hc, hout, hfirst⟩
      have e : i = j := by omega
      subst e
      exact ⟨mp, hj, hc, hout, hfirst⟩
    · rintro ⟨mp, hj, hc, hout, hfirst⟩
      exact ⟨i, mp, by omega, hj, hc, hout, hfirst⟩
  · intro m0 t fs1 fs2 hm0
    have hr : RealPath (currentDirectoryOf (Mount (Mount m0 "a:".toList fs1)
        "a:/sub".toList fs2) t) "a:/sub/file".toList = .ok (some "a:/sub/file".toList) := by
      have := RealPath_absolute (currentDirectoryOf (Mount (Mount m0 "a:".toList fs1)
        "a:/sub".toList fs2) t) "a".toList "/sub/file".toList (by decide) (by decide)
        (by decide)
      rw [show "a".toList ++ ':' :: "/sub/file".toList = "a:/sub/file".toList from rfl] at this
      rw [this]
      decide
    rw [MapFilePath_of_RealPath _ t _ _ (by decide) hr]
    have h0 : strncasecmp "a:".toList "a:/sub/file".toList 2 = 0 := by decide
    have hs : substr "a:/sub/file".toList 2 npos = .ok "/sub/file".toList := by decide
    simp only [Mount, hm0, List.nil_append, List.cons_append, scanMounts]
    rw [show ("a:".toList).length = 2 from rfl, if_pos h0, hs]

/-- C4, amended, on the mount list `ms0:`, `umd0:` and the path `UMD0:/x`: binding 1 is
selected, with stripped path `/x`. -/
theorem C4_mount_scan_first_match_witness :
    scanMounts "UMD0:/x".toList
        [{ pfx := "ms0:".toList, system := 1 }, { pfx := "umd0:".toList, system := 2 }] 0
      = .ok (some ("/x".toList, 1)) :=
  ((C4_mount_scan_first_match
      [{ pfx := "ms0:".toList, system := 1 }, { pfx := "umd0:".toList, system := 2 }]
      "UMD0:/x".toList (by decide) (by decide)).1 "/x".toList 1).mpr
    ⟨{ pfx := "umd0:".toList, system := 2 }, by decide, by decide, by decide, by
      intro j mq hj h
      have e : j = 0 := by omega
      subst e
      simp only [List.getElem?_cons_zero, Option.some.injEq] at h
      subst h
      decide⟩

/-- C5: the claim that `MapFilePath` never throws fails on the five-character
input `host0`: `strncasecmp(inpath, "host0:", 5)` is zero, and `inpath.substr(6)`
is called on a string of length five, which throws `std::out_of_range`,
whatever the mounts, the registry, the starting directory and the thread. -/
theorem C5_MapFilePath_host0_throws (m : MetaFileSystem) (t : Int) :
    MapFilePath m t "host0".toList = .error .out_of_range := by
  have h0 : strncasecmp "host0".toList host0 5 = 0 := by decide
  have hs : substr "host0".toList 6 npos = .error .out_of_range := by decide
  simp only [MapFilePath, h0, hs, if_true]

/-- C6: when `MapFilePath` returns false on `dir`, `ChDir(dir)` returns normally
and leaves the calling thread with the working-directory entry `dir`, as given. -/
theorem C6_ChDir_unresolved_stores_raw (m : MetaFileSystem) (t : Int) (dir : Str)
    (h : MapFilePath m t dir = .ok none) :
    (ChDir m t dir).1.currentDir t = some dir ∧ (ChDir m t dir).2 = .ok () := by
  simp [ChDir, h, setCurrentDir]

/-- C6 on a router without mounts: `ChDir` to `ms0:/PSP/../x` stores that very
text, not its normal form. -/
theorem C6_ChDir_unresolved_stores_raw_witness :
    (ChDir { current := 0, currentDir := fun _ => none, fileSystems := [],
             startingDirectory := [] } 7 "ms0:/PSP/../x".toList).1.currentDir 7
        = some "ms0:/PSP/../x".toList
    ∧ (ChDir { current := 0, currentDir := fun _ => none, fileSystems := [],
               startingDirectory := [] } 7 "ms0:/PSP/../x".toList).2 = .ok () :=
  C6_ChDir_unresolved_stores_raw _ 7 "ms0:/PSP/../x".toList (by decide)

/-- C7: when `MapFilePath` returns true on `dir` with binding `i` and stripped
path `s`, that binding exists and `ChDir(dir)` returns normally and leaves the
calling thread with the entry made of the binding's own prefix followed by `s`. -/
theorem C7_ChDir_resolved_stores_mounted_form (m : MetaFileSystem) (t : Int)
    (dir s : Str) (i : Nat) (h : MapFilePath m t dir = .ok (some (s, i))) :
    ∃ mp, m.fileSystems[i]? = some mp
      ∧ (ChDir m t dir).1.currentDir t = some (mp.pfx ++ s)
      ∧ (ChDir m t dir).2 = .ok () := by
  obtain ⟨mp, hmp⟩ := MapFilePath_index m t dir s i h
  exact ⟨mp, hmp, by simp [ChDir, h, hmp, setCurrentDir]⟩

/-- C7 with `ms0:` mounted: `ChDir` to `MS0:/PSP/../x` stores `ms0:/x`, the
mount's spelling of the prefix and the normalised remainder. -/
theorem C7_ChDir_resolved_stores_mounted_form_witness :
    ∃ mp, [({ pfx := "ms0:".toList, system := 1 } : MountPoint)][0]? = some mp
      ∧ (ChDir { current := 0, currentDir := fun _ => none,
                 fileSystems := [{ pfx := "ms0:".toList, system := 1 }],
                 startingDirectory := [] } 7 "MS0:/PSP/../x".toList).1.currentDir 7
          = some (mp.pfx ++ "/x".toList)
      ∧ (ChDir { current := 0, currentDir := fun _ => none,
                 fileSystems := [{ pfx := "ms0:".toList, system := 1 }],
                 startingDirectory := [] } 7 "MS0:/PSP/../x".toList).2 = .ok () :=
  C7_ChDir_resolved_stores_mounted_form
    { current := 0, currentDir := fun _ => none,
      fileSystems := [{ pfx := "ms0:".toList, system := 1 }], startingDirectory := [] }
    7 "MS0:/PSP/../x".toList "/x".toList 0 (by decide)

/-- C8: `ThreadEnded(t)` leaves no entry for `t`, leaves the entry of every
other thread as it was, and leaves the mount list as it was; `ChDir` called by
thread `t` leaves the entry of every other thread as it was, for every
argument and however the call ends. -/
theorem C8_registry_frame (m : MetaFileSystem) (t : Int) :
    (ThreadEnded m t).currentDir t = none
    ∧ (∀ u, u ≠ t → (ThreadEnded m t).currentDir u = m.currentDir u)
    ∧ (ThreadEnded m t).fileSystems = m.fileSystems
    ∧ (∀ dir u, u ≠ t → (ChDir m t dir).1.currentDir u = m.currentDir u) := by
  refine ⟨by simp [ThreadEnded], fun u hu => by simp [ThreadEnded, hu], rfl, ?_⟩
  intro dir u hu
  unfold ChDir
  split
  · rfl
  · split
    · simp [setCurrentDir, hu]
    · rfl
  · simp [setCurrentDir, hu]

/-- C8 with thread 1 in `ms0:/` and thread 2 in `umd0:/`: after thread 1 ends,
and after thread 1 changes directory, thread 2 is still in `umd0:/`. -/
theorem C8_registry_frame_witness :
    (ThreadEnded { oneMountRouter with
        currentDir := fun t => if t = 1 then some "ms0:/".toList
          else if t = 2 then some "umd0:/".toList else none } 1).currentDir 2
      = some "umd0:/".toList
    ∧ (ChDir { oneMountRouter with
        currentDir := fun t => if t = 1 then some "ms0:/".toList
          else if t = 2 then some "umd0:/".toList else none } 1
        "ms0:/PSP".toList).1.currentDir 2 = some "umd0:/".toList :=
  have h := C8_registry_frame { oneMountRouter with
    currentDir := fun t => if t = 1 then some "ms0:/".toList
      else if t = 2 then some "umd0:/".toList else none } 1
  ⟨by rw [h.2.1 2 (by decide)]; rfl, by rw [h.2.2.2 _ 2 (by decide)]; rfl⟩

/-- C9, as stated, fails: a router with one mount, marker 0 and an empty
registry reads a snapshot that records two mounts, marker 6 and a working
directory for thread 1.  The recorded count differs from the number of mounts
and the load is abandoned, yet afterwards the marker and the entry of thread 1
differ from what they were before the load. -/
theorem C9_DoState_mismatch_partial_apply :
    twoMountSnapshot.mode = .MODE_READ
    ∧ twoMountSnapshot.mountCount ≠ oneMountRouter.fileSystems.length
    ∧ (DoState oneMountRouter twoMountSnapshot).state.current ≠ oneMountRouter.current
    ∧ (DoState oneMountRouter twoMountSnapshot).state.currentDir 1
        ≠ oneMountRouter.currentDir 1 := by
  decide

/-- C9, amended: reading a snapshot whose recorded mount count (a `u32`) differs
from the current number of mounts abandons the load after the marker and the
working-directory mapping have been replaced by the snapshot's values: the
diagnostic is logged, no backing filesystem is asked to restore its state, the
closing marker is not reached, and the mount list and the starting directory
are as before. -/
theorem C9_DoState_mismatch_amended (m : MetaFileSystem) (p : PointerWrap)
    (hmode : p.mode = .MODE_READ) (hcount : p.mountCount < 4294967296)
    (hsize : m.fileSystems.length < 4294967296)
    (hne : p.mountCount ≠ m.fileSystems.length) :
    (DoState m p).state.current = p.marker
    ∧ (DoState m p).state.currentDir = p.workingDirectoryMap
    ∧ (DoState m p).state.fileSystems = m.fileSystems
    ∧ (DoState m p).state.startingDirectory = m.startingDirectory
    ∧ (DoState m p).errorLogged = true
    ∧ (DoState m p).systemsCalled = []
    ∧ (DoState m p).markerReached = false := by
  have h1 : p.mountCount % 4294967296 = p.mountCount := Nat.mod_eq_of_lt hcount
  have h2 : m.fileSystems.length % 4294967296 = m.fileSystems.length :=
    Nat.mod_eq_of_lt hsize
  simp [DoState, PointerWrap.Do, hmode, h1, h2, hne]

/-- C9, amended, on a router with one mount reading a snapshot that records two. -/
theorem C9_DoState_mismatch_amended_witness :
    (DoState oneMountRouter twoMountSnapshot).state.current = 6
    ∧ (DoState oneMountRouter twoMountSnapshot).state.currentDir 1 = some "ms0:/".toList
    ∧ (DoState oneMountRouter twoMountSnapshot).systemsCalled = [] :=
  have h := C9_DoState_mismatch_amended oneMountRouter twoMountSnapshot rfl (by decide)
    (by decide) (by decide)
  ⟨h.1, by rw [h.2.1]; rfl, h.2.2.2.2.2.1⟩

/-- C10: `Shutdown` destroys every backing filesystem that some binding of the
mount list points to exactly once and destroys nothing else (a null pointer
is not an object and `delete` on it destroys nothing); afterwards the mount
list and the working-directory registry are empty.  With one object mounted
under two prefixes, that object is destroyed exactly once. -/
theorem C10_Shutdown_releases_once (m : MetaFileSystem) :
    (∀ ptr, (Shutdown m).2.count ptr
        = if ptr ≠ 0 ∧ ptr ∈ m.fileSystems.map (fun mp => mp.system) then 1 else 0)
    ∧ (Shutdown m).1.fileSystems = []
    ∧ (∀ t, (Shutdown m).1.currentDir t = none)
    ∧ (∀ (m0 : MetaFileSystem) (pfx1 pfx2 : Str) (fs : Nat), m0.fileSystems = [] → fs ≠ 0 →
        (Shutdown (Mount (Mount m0 pfx1 fs) pfx2 fs)).2 = [fs]) := by
  obtain ⟨hnd, hmem⟩ := toDelete_spec m.fileSystems
  refine ⟨fun ptr => ?_, rfl, fun _ => rfl, ?_⟩
  · have hnd2 : ((toDelete m.fileSystems).filter (fun ptr => ptr ≠ 0)).Nodup :=
      hnd.filter _
    by_cases h : ptr ≠ 0 ∧ ptr ∈ m.fileSystems.map (fun mp => mp.system)
    · rw [if_pos h]
      apply List.count_eq_one_of_mem hnd2
      simp only [Shutdown, List.mem_filter, hmem ptr, decide_eq_true_eq]
      exact ⟨h.2, h.1⟩
    · rw [if_neg h]
      apply List.count_eq_zero_of_not_mem
      simp only [Shutdown, List.mem_filter, hmem ptr, decide_eq_true_eq]
      tauto
  · intro m0 pfx1 pfx2 fs hm0 hfs
    simp [Shutdown, Mount, hm0, toDelete, setInsert, hfs]

/-- C10 with one object, at address 5, mounted as `ms0:` and as `fatms0:`: it is
destroyed once. -/
theorem C10_Shutdown_releases_once_witness :
    (Shutdown (Mount (Mount { oneMountRouter with fileSystems := [] } "ms0:".toList 5)
      "fatms0:".toList 5)).2 = [5] :=
  (C10_Shutdown_releases_once oneMountRouter).2.2.2
    { oneMountRouter with fileSystems := [] } "ms0:".toList "fatms0:".toList 5 rfl
    (by decide)

/-- C12: for a current directory `q:` that is all prefix and a relative input
`r` (non-empty, without a colon), `RealPath` returns true with the same output
for the current directory `q:` and for the current directory `q:/`. -/
theorem C12_RealPath_allPrefix_cd_as_root (q r : Str) (hq : ':' ∉ q) (hr : r ≠ [])
    (hrc : ':' ∉ r) (hl : r.length < npos) (hlq : (q ++ [':'] ++ ['/']).length < npos) :
    ∃ out, RealPath (q ++ [':']) r = .ok (some out)
      ∧ RealPath (q ++ [':'] ++ ['/']) r = .ok (some out) := by
  have h1 := RealPath_relative q [] r hr hrc hq hl (by simp at hlq ⊢; omega)
  have h2 := RealPath_relative q ['/'] r hr hrc hq hl (by simpa using hlq)
  refine ⟨_, h1, ?_⟩
  have e : q ++ [':'] ++ ['/'] = q ++ ':' :: ['/'] := by simp
  rw [e, h2]
  rfl

/-- C12 at the current directories `ms0:` and `ms0:/` with the input
`PSP/./GAME`. -/
theorem C12_RealPath_allPrefix_cd_as_root_witness :
    ∃ out, RealPath "ms0:".toList "PSP/./GAME".toList = .ok (some out)
      ∧ RealPath "ms0:/".toList "PSP/./GAME".toList = .ok (some out) :=
  C12_RealPath_allPrefix_cd_as_root "ms0".toList "PSP/./GAME".toList (by decide) (by decide)
    (by decide) (by decide) (by decide)

/-- C13: for every current directory `D`, of any shape, `RealPath` applied to the
empty input returns true with output `D`. -/
theorem C13_RealPath_empty_input (D : Str) : RealPath D [] = .ok (some D) := by
  simp [RealPath]

/-- C14: for every initial vector and every string `s` (shorter than `npos`), the
loop of `ApplyPathStringToComponentsVector` ends, the function returns true, and
the vector is the left fold of `stepSegment` over the segments of `s` split at
its slashes; `stepSegment` keeps the stack on an empty segment and on `.`, pops
the last component on `..` when there is one and keeps the empty stack
otherwise, and pushes every other segment. -/
theorem C14_ApplyPath_is_fold_over_segments (vector : List Str) (s : Str)
    (hl : s.length < npos) :
    ApplyPathStringToComponentsVector vector s
        = .ok (true, (s.splitOn '/').foldl stepSegment vector)
    ∧ (∀ stack, stepSegment stack [] = stack)
    ∧ (∀ stack, stepSegment stack ['.'] = stack)
    ∧ stepSegment [] ['.', '.'] = []
    ∧ (∀ stack c, stepSegment (stack ++ [c]) ['.', '.'] = stack)
    ∧ (∀ stack seg, seg ≠ [] → seg ≠ ['.'] → seg ≠ ['.', '.'] →
        stepSegment stack seg = stack ++ [seg]) := by
  refine ⟨?_, fun _ => rfl, fun _ => rfl, rfl, fun stack c => ?_, fun stack seg h1 h2 h3 => ?_⟩
  · rw [ApplyPath_eq_fold vector s hl, splitSlash_eq_splitOn]
  · simp [stepSegment]
  · simp [stepSegment, h1, h2, h3]

/-- C14 on the vector `[a]` and the string `b/../../c//./d/`: the vector becomes
`[c, d]`. -/
theorem C14_ApplyPath_is_fold_over_segments_witness :
    ApplyPathStringToComponentsVector ["a".toList] "b/../../c//./d/".toList
      = .ok (true, ["c".toList, "d".toList]) :=
  (C14_ApplyPath_is_fold_over_segments ["a".toList] "b/../../c//./d/".toList
    (by decide)).1.trans (by decide)

/-- C15: for a current directory `D` with a colon and a relative input `r`
(non-empty, without a colon, whether it starts with a slash or not), `RealPath`
returns true, its output is what `RealPath` returns for the absolute input
`D/r` under any current directory, and it is the prefix of `D` followed by the
normalised components of `D` and then of `r`. -/
theorem C15_RealPath_relative_is_appended (D r : Str) (hD : ':' ∈ D) (hr : r ≠ [])
    (hrc : ':' ∉ r) (hl : (D ++ ['/'] ++ r).length < npos) :
    ∃ out, RealPath D r = .ok (some out)
      ∧ (∀ D2, RealPath D2 (D ++ ['/'] ++ r) = .ok (some out))
      ∧ ∃ q after, D = q ++ ':' :: after ∧ ':' ∉ q
          ∧ out = appendComponents (q ++ [':'])
              ((r.splitOn '/').foldl stepSegment
                ((after.splitOn '/').foldl stepSegment [])) := by
  obtain ⟨q, after, hs, hq⟩ := List.eq_append_cons_of_mem hD
  subst hs
  have hlr : r.length < npos := by simp at hl; omega
  have hlD : (q ++ ':' :: after).length < npos := by simp at hl ⊢; omega
  have h1 := RealPath_relative q after r hr hrc hq hlr hlD
  refine ⟨_, h1, fun D2 => ?_, q, after, rfl, hq, ?_⟩
  · have e : q ++ ':' :: after ++ ['/'] ++ r = q ++ ':' :: (after ++ '/' :: r) := by simp
    rw [e] at hl ⊢
    rw [RealPath_absolute D2 q _ hq (by simp) hl, splitSlash_append_slash,
      List.foldl_append]
  · rw [splitSlash_eq_splitOn, splitSlash_eq_splitOn]

/-- C15 at the current directory `ms0:/PSP/GAME` and the input `/../SAVEDATA`,
which starts with a slash and is relative all the same. -/
theorem C15_RealPath_relative_is_appended_witness :
    ∃ out, RealPath "ms0:/PSP/GAME".toList "/../SAVEDATA".toList = .ok (some out)
      ∧ (∀ D2, RealPath D2 ("ms0:/PSP/GAME".toList ++ ['/'] ++ "/../SAVEDATA".toList)
          = .ok (some out))
      ∧ ∃ q after, "ms0:/PSP/GAME".toList = q ++ ':' :: after ∧ ':' ∉ q
          ∧ out = appendComponents (q ++ [':'])
              (("/../SAVEDATA".toList.splitOn '/').foldl stepSegment
                ((after.splitOn '/').foldl stepSegment [])) :=
  C15_RealPath_relative_is_appended "ms0:/PSP/GAME".toList "/../SAVEDATA".toList
    (by decide) (by decide) (by decide) (by decide)

/-- C16, as stated, fails in two ways.  On the empty input with the empty
current directory (the starting directory that `Shutdown` leaves) `RealPath`
returns true with the empty output, which has no colon.  On the non-empty
input `a/../b//c:`, whose first colon is its last character, `RealPath` returns
the input as it is: the output has a `..` segment and a doubled slash, both in
the text before its colon. -/
theorem C16_RealPath_output_not_canonical :
    (RealPath [] [] = .ok (some []) ∧ ':' ∉ ([] : Str))
    ∧ (RealPath "ms0:/".toList "a/../b//c:".toList = .ok (some "a/../b//c:".toList)
        ∧ ['.', '.'] ∈ "a/../b//c:".toList.splitOn '/'
        ∧ [] ∈ "a/../b//c:".toList.splitOn '/') := by
  decide

/-- C16, amended: for every current directory and every non-empty input (both
shorter than `npos`) on which `RealPath` returns true, the output has a colon.
The text up to its first colon is the text up to the first colon of the input
when the input has a colon and of the current directory otherwise, copied as
it is, whatever it holds.  The text after the first colon is a slash and a
component for each of a possibly empty list of components, none of which is
empty, `.` or `..` or holds a slash; split at its slashes, that text consists
of one empty leading segment and these components, so it has no `.` or `..`
segment, no doubled slash and no trailing slash. -/
theorem C16_RealPath_output_canonical (cd inPath out : Str) (hne : inPath ≠ [])
    (hin : inPath.length < npos) (hcd : cd.length < npos)
    (h : RealPath cd inPath = .ok (some out)) :
    ∃ (p : Str) (cmpnts : List Str), ':' ∉ p
      ∧ ((':' ∈ inPath ∧ p ++ [':'] <+: inPath) ∨ (':' ∉ inPath ∧ p ++ [':'] <+: cd))
      ∧ (∀ c ∈ cmpnts, c ≠ [] ∧ '/' ∉ c ∧ c ≠ ['.'] ∧ c ≠ ['.', '.'])
      ∧ out = p ++ [':'] ++ (cmpnts.map (fun c => '/' :: c)).flatten
      ∧ (cmpnts ≠ [] →
          ((cmpnts.map (fun c => '/' :: c)).flatten).splitOn '/' = [] :: cmpnts) := by
  have segs : ∀ cmpnts : List Str, (∀ c ∈ cmpnts, ordinary c) → cmpnts ≠ [] →
      ((cmpnts.map (fun c => '/' :: c)).flatten).splitOn '/' = [] :: cmpnts := by
    intro cmpnts hc hn
    rw [← splitSlash_eq_splitOn]
    have := splitSlash_joined cmpnts (fun c hmem => (hc c hmem).2.1) [] (by simp)
    simpa using this
  by_cases hc : ':' ∈ inPath
  · obtain ⟨p, rest, hs, hp⟩ := List.eq_append_cons_of_mem hc
    have hpre : p ++ [':'] <+: inPath := ⟨rest, by simp [hs]⟩
    subst hs
    by_cases hr : rest = []
    · subst hr
      rw [RealPath_allPrefix cd p hp hin] at h
      simp only [Except.ok.injEq, Option.some.injEq] at h
      exact ⟨p, [], hp, Or.inl ⟨hc, hpre⟩, by simp, by simp [← h], by simp⟩
    · rw [RealPath_absolute cd p rest hp hr hin] at h
      simp only [Except.ok.injEq, Option.some.injEq] at h
      have hord : ∀ c ∈ (splitSlash rest).foldl stepSegment [], ordinary c := by
        have := normalised_all_ordinary [] rest
        simpa [splitSlash, stepSegment] using this
      exact ⟨p, _, hp, Or.inl ⟨hc, hpre⟩, hord, by rw [← h, appendComponents_eq],
        segs _ hord⟩
  · by_cases hcd2 : ':' ∈ cd
    · obtain ⟨q, after, hs, hq⟩ := List.eq_append_cons_of_mem hcd2
      have hpre : q ++ [':'] <+: cd := ⟨after, by simp [hs]⟩
      subst hs
      rw [RealPath_relative q after inPath hne hc hq hin hcd] at h
      simp only [Except.ok.injEq, Option.some.injEq] at h
      exact ⟨q, _, hq, Or.inr ⟨hc, hpre⟩, normalised_all_ordinary after inPath,
        by rw [← h, appendComponents_eq], segs _ (normalised_all_ordinary after inPath)⟩
    · rw [RealPath_relative_none cd inPath hne hc hcd2] at h
      cases h

/-- C16, amended, at the current directory `ms0:/PSP/` and the input
`./GAME//../SAVEDATA/`, where the output is `ms0:/PSP/SAVEDATA`. -/
theorem C16_RealPath_output_canonical_witness :
    ∃ (p : Str) (cmpnts : List Str), ':' ∉ p
      ∧ ((':' ∈ "./GAME//../SAVEDATA/".toList ∧ p ++ [':'] <+: "./GAME//../SAVEDATA/".toList)
          ∨ (':' ∉ "./GAME//../SAVEDATA/".toList ∧ p ++ [':'] <+: "ms0:/PSP/".toList))
      ∧ (∀ c ∈ cmpnts, c ≠ [] ∧ '/' ∉ c ∧ c ≠ ['.'] ∧ c ≠ ['.', '.'])
      ∧ "ms0:/PSP/SAVEDATA".toList = p ++ [':'] ++ (cmpnts.map (fun c => '/' :: c)).flatten
      ∧ (cmpnts ≠ [] →
          ((cmpnts.map (fun c => '/' :: c)).flatten).splitOn '/' = [] :: cmpnts) :=
  C16_RealPath_output_canonical "ms0:/PSP/".toList "./GAME//../SAVEDATA/".toList
    "ms0:/PSP/SAVEDATA".toList (by decide) (by decide) (by decide) (by decide)

/-- C19: when `RealPath` returns true with output `q` on a non-empty input, it
returns true with output `q` again when applied to `q`, under any current
directory (strings shorter than `npos`). -/
theorem C19_RealPath_idempotent (D p q D2 : Str) (hne : p ≠ []) (hp : p.length < npos)
    (hD : D.length < npos) (hq : q.length < npos)
    (h : RealPath D p = .ok (some q)) :
    RealPath D2 q = .ok (some q) :=
  RealPath_of_canonical D2 q (RealPath_canonical D p q hne hp hD h) hq

/-- C19 at the output `ms0:/PSP/SAVEDATA` of the input `./GAME//../SAVEDATA/`
under `ms0:/PSP/`, fed back under the current directory `umd0:/x`. -/
theorem C19_RealPath_idempotent_witness :
    RealPath "umd0:/x".toList "ms0:/PSP/SAVEDATA".toList
      = .ok (some "ms0:/PSP/SAVEDATA".toList) :=
  C19_RealPath_idempotent "ms0:/PSP/".toList "./GAME//../SAVEDATA/".toList
    "ms0:/PSP/SAVEDATA".toList "umd0:/x".toList (by decide) (by decide) (by decide)
    (by decide) (by decide)

/-- C17: the claim fails on the relative input `host0/a/b`, which does not begin
with `host0:`: the test `strncasecmp(inpath, "host0:", 5)` looks at five
characters only, so six characters are stripped and the input resolves as `a/b`
would, in every router state.  In `ms0Router` the result is binding 0 with the
stripped path `/a/b`, while normalising the input as it is would give
`ms0:/host0/a/b`. -/
theorem C17_host0_test_compares_five_characters :
    ¬ ciPrefix host0 "host0/a/b".toList
    ∧ (∀ m t, MapFilePath m t "host0/a/b".toList = MapFilePath m t "a/b".toList)
    ∧ MapFilePath ms0Router 1 "host0/a/b".toList = .ok (some ("/a/b".toList, 0))
    ∧ RealPath (currentDirectoryOf ms0Router 1) "host0/a/b".toList
        = .ok (some "ms0:/host0/a/b".toList) := by
  refine ⟨by decide, fun m t => ?_, by decide, by decide⟩
  have h0 : strncasecmp "host0/a/b".toList host0 5 = 0 := by decide
  have hs : substr "host0/a/b".toList 6 npos = .ok "a/b".toList := by decide
  have h1 : ¬ strncasecmp "a/b".toList host0 5 = 0 := by decide
  simp only [MapFilePath, h0, hs, h1, if_true, if_false]

/-- C18, as stated, fails: in `oneMountRouter`, whose only binding has the prefix
`ms0:`, resolving the absolute input `ms0x:/f` returns false. -/
theorem C18_ms0_does_not_match_ms0x :
    oneMountRouter.fileSystems = [{ pfx := "ms0:".toList, system := 1 }]
    ∧ MapFilePath oneMountRouter 1 "ms0x:/f".toList = .ok none := by
  decide

/-- C18, amended: the comparison is literal, on the characters of the prefix and
ignoring case, with no requirement on what follows the prefix in the path.
When the only binding has the prefix `ms0:`, the absolute input `ms0x:/f` does
not match (the fourth characters differ) and resolution returns false; when
the only binding has the prefix `ms0`, the same input matches it and the
stripped path is `x:/f`. -/
theorem C18_literal_match_without_boundary (m : MetaFileSystem) (t : Int) (fs : Nat) :
    (m.fileSystems = [{ pfx := "ms0:".toList, system := fs }] →
      MapFilePath m t "ms0x:/f".toList = .ok none)
    ∧ (m.fileSystems = [{ pfx := "ms0".toList, system := fs }] →
      MapFilePath m t "ms0x:/f".toList = .ok (some ("x:/f".toList, 0))) := by
  have hr : RealPath (currentDirectoryOf m t) "ms0x:/f".toList
      = .ok (some "ms0x:/f".toList) := by
    have := RealPath_absolute (currentDirectoryOf m t) "ms0x".toList "/f".toList
      (by decide) (by decide) (by decide)
    rw [show "ms0x".toList ++ ':' :: "/f".toList = "ms0x:/f".toList from rfl] at this
    rw [this]
    decide
  rw [MapFilePath_of_RealPath m t _ _ (by decide) hr]
  constructor
  · intro hm
    have h0 : ¬ strncasecmp "ms0:".toList "ms0x:/f".toList 4 = 0 := by decide
    rw [hm]
    simp only [scanMounts]
    rw [show ("ms0:".toList).length = 4 from rfl, if_neg h0]
  · intro hm
    have h0 : strncasecmp "ms0".toList "ms0x:/f".toList 3 = 0 := by decide
    have hs : substr "ms0x:/f".toList 3 npos = .ok "x:/f".toList := by decide
    rw [hm]
    simp only [scanMounts]
    rw [show ("ms0".toList).length = 3 from rfl, if_pos h0, hs]

/-- C18, amended, in `oneMountRouter`: `ms0x:/f` does not resolve. -/
theorem C18_literal_match_without_boundary_witness :
    MapFilePath oneMountRouter 1 "ms0x:/f".toList = .ok none :=
  (C18_literal_match_without_boundary oneMountRouter 1 1).1 rfl

/-- C11: when every mounted filesystem disclaims the handle, `ReadFile`,
`WriteFile` and `SeekFile` return 0 and `CloseFile` returns, and the only calls
made to backing filesystems are the `OwnsHandle` queries, one per binding in
mount order.  When binding `i` is the first whose filesystem claims the handle,
the queries stop at binding `i` and are followed by exactly one call of the
operation on that filesystem, whose result is returned as it is. -/
theorem C11_handle_operations (m : MetaFileSystem) (objects : Objects) (h : Nat) :
    ((∀ mp ∈ m.fileSystems, ∃ fs, deref objects mp.system = some fs
        ∧ fs.OwnsHandle h = false) →
      ∀ (pointer : Nat) (size position : Int) (type : Nat),
        ReadFile m objects h pointer size
          = (m.fileSystems.map (fun mp => Call.OwnsHandle mp.system h), .ok 0)
        ∧ WriteFile m objects h pointer size
          = (m.fileSystems.map (fun mp => Call.OwnsHandle mp.system h), .ok 0)
        ∧ SeekFile m objects h position type
          = (m.fileSystems.map (fun mp => Call.OwnsHandle mp.system h), .ok 0)
        ∧ CloseFile m objects h
          = (m.fileSystems.map (fun mp => Call.OwnsHandle mp.system h), .ok ()))
    ∧ (∀ (i : Nat) (mp : MountPoint) (fs : IFileSystem),
        m.fileSystems[i]? = some mp → deref objects mp.system = some fs →
        fs.OwnsHandle h = true →
        (∀ j mq, j < i → m.fileSystems[j]? = some mq →
          ∃ fq, deref objects mq.system = some fq ∧ fq.OwnsHandle h = false) →
        ∀ (pointer : Nat) (size position : Int) (type : Nat),
          ReadFile m objects h pointer size
            = ((m.fileSystems.take (i + 1)).map (fun mp => Call.OwnsHandle mp.system h)
                ++ [Call.ReadFile mp.system h pointer size],
               .ok (fs.ReadFile h pointer size))
          ∧ WriteFile m objects h pointer size
            = ((m.fileSystems.take (i + 1)).map (fun mp => Call.OwnsHandle mp.system h)
                ++ [Call.WriteFile mp.system h pointer size],
               .ok (fs.WriteFile h pointer size))
          ∧ SeekFile m objects h position type
            = ((m.fileSystems.take (i + 1)).map (fun mp => Call.OwnsHandle mp.system h)
                ++ [Call.SeekFile mp.system h position type],
               .ok (fs.SeekFile h position type))
          ∧ CloseFile m objects h
            = ((m.fileSystems.take (i + 1)).map (fun mp => Call.OwnsHandle mp.system h)
                ++ [Call.CloseFile mp.system h],
               .ok ())) := by
  constructor
  · intro hno pointer size position type
    have hg := handleOwnerLoop_unowned objects h m.fileSystems hno
    simp [ReadFile, WriteFile, SeekFile, CloseFile, GetHandleOwner, hg]
  · intro i mp fs hi hfs hown hbefore pointer size position type
    have hg := handleOwnerLoop_owned objects h m.fileSystems i mp fs hi hfs hown hbefore
    have hne := deref_ne_zero hfs
    simp [ReadFile, WriteFile, SeekFile, CloseFile, GetHandleOwner, hg, hne, hfs]

/-- C11 in `twoMountRouter` with `sampleObjects`: handle 9 is owned by nobody, so
`ReadFile` asks both filesystems and returns 0; handle 7 is owned by the second
filesystem, so `ReadFile` asks both, reads from the second and returns its 16. -/
theorem C11_handle_operations_witness :
    ReadFile twoMountRouter sampleObjects 9 4096 16
        = ([Call.OwnsHandle 1 9, Call.OwnsHandle 2 9], .ok 0)
    ∧ ReadFile twoMountRouter sampleObjects 7 4096 16
        = ([Call.OwnsHandle 1 7, Call.OwnsHandle 2 7, Call.ReadFile 2 7 4096 16], .ok 16) :=
  ⟨((C11_handle_operations twoMountRouter sampleObjects 9).1 (by decide) 4096 16 0 0).1,
   ((C11_handle_operations twoMountRouter sampleObjects 7).2 1
      { pfx := "umd0:".toList, system := 2 } (sampleFileSystem 7) rfl rfl rfl
      (by
        intro j mq hj hq
        have e : j = 0 := by omega
        subst e
        simp only [twoMountRouter, List.getElem?_cons_zero, Option.some.injEq] at hq
        subst hq
        exact ⟨sampleFileSystem 5, rfl, rfl⟩)
      4096 16 0 0).1⟩

/-- C20: `RenameFile` returns false and calls no backing filesystem when
`MapFilePath` returns false on the source (whatever resolving the destination
would do, which is not attempted) or returns true on the source and false on
the destination.  When it returns true on both, with binding `j` for the
destination, `RenameFile` makes exactly one call, `RenameFile(of, rf)` with the
two stripped paths on the filesystem of binding `j`, and returns its result. -/
theorem C20_RenameFile_delegation (m : MetaFileSystem) (objects : Objects) (t : Int)
    (pathFrom pathTo : Str) :
    (MapFilePath m t pathFrom = .ok none →
      RenameFile m objects t pathFrom pathTo = ([], .ok false))
    ∧ (∀ of i, MapFilePath m t pathFrom = .ok (some (of, i)) →
        MapFilePath m t pathTo = .ok none →
        RenameFile m objects t pathFrom pathTo = ([], .ok false))
    ∧ (∀ of i rf j mpTo fs, MapFilePath m t pathFrom = .ok (some (of, i)) →
        MapFilePath m t pathTo = .ok (some (rf, j)) →
        m.fileSystems[j]? = some mpTo → deref objects mpTo.system = some fs →
        RenameFile m objects t pathFrom pathTo
          = ([Call.RenameFile mpTo.system of rf], .ok (fs.RenameFile of rf))) := by
  refine ⟨fun h => ?_, fun of i h1 h2 => ?_, fun of i rf j mpTo fs h1 h2 hj hfs => ?_⟩
  · simp [RenameFile, MapFilePathSystem, h]
  · obtain ⟨mp, hmp⟩ := MapFilePath_index m t pathFrom of i h1
    simp [RenameFile, MapFilePathSystem, h1, h2, hmp]
  · obtain ⟨mp, hmp⟩ := MapFilePath_index m t pathFrom of i h1
    simp [RenameFile, MapFilePathSystem, h1, h2, hmp, hj, hfs]

/-- C20 in `twoMountRouter` with `sampleObjects`: renaming `ms0:/a` to `umd0:/b`
makes the one call `RenameFile(/a, /b)` on the filesystem of `umd0:`, at address
2, and returns its result. -/
theorem C20_RenameFile_delegation_witness :
    RenameFile twoMountRouter sampleObjects 1 "ms0:/a".toList "umd0:/b".toList
      = ([Call.RenameFile 2 "/a".toList "/b".toList], .ok true) :=
  (C20_RenameFile_delegation twoMountRouter sampleObjects 1 "ms0:/a".toList
    "umd0:/b".toList).2.2 "/a".toList 0 "/b".toList 1
    { pfx := "umd0:".toList, system := 2 } (sampleFileSystem 7) (by decide) (by decide)
    rfl rfl

end MetaFS
